import Mathlib

/-!
Verification development for the goccmack/godsp signal-processing library.

Embedded components (shallow embedding, Go slices modelled as `List`,
in-place writes as `List.set`, Go's `float64` values as elements of a
linear ordered field, with the IEEE special values `±Inf`/`NaN` modelled
explicitly by the `EF` type where the code manipulates them):

* the persistent-homology peak detector
  (`GetPeaks`, `getPersistence`, `MinMaxPersistence`, `GetIndices`);
* the sectioned Daubechies-4 lifting DWT (`dwt.go`: `getTransformSections`,
  `split`, `daubechies4`, `Daubechies4`, `GetCoefficients`,
  `GetDownSampledCoefficients`, `GetDecomposition`).
-/

namespace Godsp

/-! ### Small list helpers -/

theorem getD_set_eq {α : Type} (l : List α) (i : ℕ) (v d : α) (h : i < l.length) :
    (l.set i v).getD i d = v := by
  simp [List.getD_eq_getElem?_getD, List.getElem?_set, h]

theorem getD_set_ne {α : Type} (l : List α) {i j : ℕ} (v d : α) (h : i ≠ j) :
    (l.set i v).getD j d = l.getD j d := by
  simp [List.getD_eq_getElem?_getD, List.getElem?_set, h]

theorem getD_set {α : Type} (l : List α) (i j : ℕ) (v d : α) :
    (l.set i v).getD j d = if i = j ∧ i < l.length then v else l.getD j d := by
  by_cases hij : i = j
  · subst hij
    by_cases h : i < l.length
    · simp [h, getD_set_eq]
    · simp [h, List.set_eq_of_length_le (Nat.le_of_not_lt h)]
  · simp [hij, getD_set_ne l v d hij]

theorem getD_replicate {α : Type} (n j : ℕ) (a d : α) :
    (List.replicate n a).getD j d = if j < n then a else d := by
  induction n generalizing j with
  | zero => simp [List.getD]
  | succ n ih =>
    cases j with
    | zero => simp [List.replicate, List.getD]
    | succ j => simpa [List.replicate, List.getD] using ih j

theorem getD_append_left {α : Type} (l₁ l₂ : List α) (j : ℕ) (d : α) (h : j < l₁.length) :
    (l₁ ++ l₂).getD j d = l₁.getD j d := by
  simp [List.getD_eq_getElem?_getD, List.getElem?_append_left h]

theorem getD_append_right {α : Type} (l₁ l₂ : List α) (j : ℕ) (d : α) (h : l₁.length ≤ j) :
    (l₁ ++ l₂).getD j d = l₂.getD (j - l₁.length) d := by
  simp [List.getD_eq_getElem?_getD, List.getElem?_append_right h]

/-! ### A stable sort.

Go's `sort.SliceStable` is modelled by a stable insertion sort.  The
orderings used by the source (value-descending with ties kept in index
order, and born-ascending on peaks whose `born` indices are distinct)
are total preorders, and every stable sorting algorithm produces the
same output on a total preorder, so the choice of algorithm is
semantically irrelevant. -/

def insertLe {α : Type} (le : α → α → Bool) (a : α) : List α → List α
  | [] => [a]
  | b :: l => if le a b then a :: b :: l else b :: insertLe le a l

def sortLe {α : Type} (le : α → α → Bool) : List α → List α
  | [] => []
  | a :: l => insertLe le a (sortLe le l)

theorem perm_insertLe {α : Type} (le : α → α → Bool) (a : α) (l : List α) :
    (insertLe le a l).Perm (a :: l) := by
  induction l with
  | nil => simp [insertLe]
  | cons b l ih =>
    cases h : le a b with
    | true => simp [insertLe, h]
    | false =>
      simp only [insertLe, h, Bool.false_eq_true, if_false]
      exact (ih.cons b).trans (List.Perm.swap a b l)

theorem perm_sortLe {α : Type} (le : α → α → Bool) (l : List α) :
    (sortLe le l).Perm l := by
  induction l with
  | nil => simp [sortLe]
  | cons a l ih => exact (perm_insertLe le a (sortLe le l)).trans (ih.cons a)

theorem mem_insertLe {α : Type} (le : α → α → Bool) (a x : α) (l : List α) :
    x ∈ insertLe le a l ↔ x = a ∨ x ∈ l := by
  rw [(perm_insertLe le a l).mem_iff]; simp

theorem pairwise_insertLe {α : Type} (le : α → α → Bool)
    (htrans : ∀ a b c, le a b = true → le b c = true → le a c = true)
    (htot : ∀ a b, le a b = true ∨ le b a = true)
    (a : α) (l : List α) (hl : l.Pairwise (fun x y => le x y = true)) :
    (insertLe le a l).Pairwise (fun x y => le x y = true) := by
  induction l with
  | nil => simp [insertLe]
  | cons b l ih =>
    rcases hl with _ | ⟨hb, hl⟩
    cases h : le a b with
    | true =>
      simp only [insertLe, h, if_true]
      refine List.Pairwise.cons ?_ (List.Pairwise.cons hb hl)
      intro x hx
      rcases List.mem_cons.mp hx with rfl | hx
      · exact h
      · exact htrans a b x h (hb x hx)
    | false =>
      simp only [insertLe, h, Bool.false_eq_true, if_false]
      refine List.Pairwise.cons ?_ (ih hl)
      intro x hx
      rcases (mem_insertLe le a x l).1 hx with rfl | hx
      · rcases htot x b with h' | h'
        · rw [h] at h'; exact Bool.noConfusion h'
        · exact h'
      · exact hb x hx

theorem pairwise_sortLe {α : Type} (le : α → α → Bool)
    (htrans : ∀ a b c, le a b = true → le b c = true → le a c = true)
    (htot : ∀ a b, le a b = true ∨ le b a = true) (l : List α) :
    (sortLe le l).Pairwise (fun x y => le x y = true) := by
  induction l with
  | nil => simp [sortLe]
  | cons a l ih => exact pairwise_insertLe le htrans htot a (sortLe le l) ih

/-! ### IEEE-754 special values.

`EF F` models the `float64` values that flow through the persistence
code: ordinary finite values (`fin`), the two infinities produced by
`math.Inf`, and `NaN` (produced here only by `Inf / Inf` and `0 / 0`).
The comparison and division rules below are the IEEE-754 rules
restricted to these cases; finite arithmetic is modelled exactly (no
rounding), and the two signed zeros are collapsed to `fin 0`, which is
faithful because IEEE comparisons do not distinguish them and the
modelled code only compares quotients. -/

inductive EF (F : Type) where
  | nan : EF F
  | pinf : EF F
  | ninf : EF F
  | fin : F → EF F
deriving DecidableEq

namespace EF

/-- IEEE `<`: `NaN` is incomparable, `-Inf < x < +Inf` for finite `x`. -/
def lt {F : Type} [LinearOrder F] : EF F → EF F → Bool
  | nan, _ => false
  | _, nan => false
  | _, ninf => false
  | ninf, _ => true
  | pinf, _ => false
  | fin _, pinf => true
  | fin a, fin b => decide (a < b)

/-- IEEE `>=`: false whenever either side is `NaN`. -/
def ge {F : Type} [LinearOrder F] : EF F → EF F → Bool
  | nan, _ => false
  | _, nan => false
  | pinf, _ => true
  | _, pinf => false
  | _, ninf => true
  | ninf, _ => false
  | fin a, fin b => decide (b ≤ a)

/-- IEEE division for the cases reachable in `GetIndices`:
`Inf/Inf = NaN`, `Inf/finite = ±Inf`, `finite/Inf = ±0`,
`finite/0 = ±Inf` (or `NaN` for `0/0`), otherwise exact division. -/
def div {F : Type} [LinearOrderedField F] : EF F → EF F → EF F
  | nan, _ => nan
  | _, nan => nan
  | pinf, pinf => nan
  | pinf, ninf => nan
  | ninf, pinf => nan
  | ninf, ninf => nan
  | pinf, fin b => if b < 0 then ninf else pinf
  | ninf, fin b => if b < 0 then pinf else ninf
  | fin _, pinf => fin 0
  | fin _, ninf => fin 0
  | fin a, fin b =>
    if b = 0 then (if a = 0 then nan else if a < 0 then ninf else pinf) else fin (a / b)

end EF

/-! ### The persistent-homology peak detector.

Source: the `godsp` package file holding `GetPeaks` (`src/unnamed/part_001`).
Go's `died`/`idxtopeak` sentinel `none = -1` is modelled by `Option`. -/

/-- One peak record.  Source fields: `born, died, left, right int`. -/
structure Peak where
  born : ℕ
  died : Option ℕ
  left : ℕ
  right : ℕ
deriving DecidableEq, Repr

instance : Inhabited Peak := ⟨⟨0, none, 0, 0⟩⟩

/-- Source `newPeak`: `born = left = right = startIdx`, `died = none`. -/
def newPeak (startIdx : ℕ) : Peak :=
  { born := startIdx, died := none, left := startIdx, right := startIdx }

/-- Result bundle, source type `Peaks`. -/
structure Peaks (F : Type) where
  peaks : List Peak
  seq : List F
deriving DecidableEq

/-- The mutable sweep state of `GetPeaks`: the growing `peaks` slice and
the `idxtopeak` index-to-peak map (`-1` sentinel as `none`). -/
structure PState where
  peaks : List Peak
  idxToPeak : List (Option ℕ)
deriving DecidableEq, Repr

/-- Source `getPersistence`: `+Inf` for a peak that never died, else
`seq[born] - seq[died]`. -/
def Peak.getPersistence {F : Type} [Sub F] [Inhabited F] (p : Peak) (seq : List F) : EF F :=
  match p.died with
  | none => EF.pinf
  | some d => EF.fin (seq.getD p.born default - seq.getD d default)

/-- The loop body of `GetPeaks` for one index `idx` of the
descending-value sweep.  Mirrors the four branches of the source:
birth, merge-to-left-peak, merge-to-right-peak, merge of two peaks. -/
def processIdx {F : Type} [LinearOrder F] [Inhabited F]
    (seq : List F) (st : PState) (idx : ℕ) : PState :=
  let lft : Option ℕ := if 0 < idx then st.idxToPeak.getD (idx - 1) none else none
  let rgt : Option ℕ := if idx < seq.length - 1 then st.idxToPeak.getD (idx + 1) none else none
  match lft, rgt with
  | none, none =>
    { peaks := st.peaks ++ [newPeak idx],
      idxToPeak := st.idxToPeak.set idx (some st.peaks.length) }
  | some il, none =>
    let pl := st.peaks.getD il default
    { peaks := st.peaks.set il { pl with right := pl.right + 1 },
      idxToPeak := st.idxToPeak.set idx (some il) }
  | none, some ir =>
    let pr := st.peaks.getD ir default
    { peaks := st.peaks.set ir { pr with left := pr.left - 1 },
      idxToPeak := st.idxToPeak.set idx (some ir) }
  | some il, some ir =>
    let pl := st.peaks.getD il default
    let pr := st.peaks.getD ir default
    if seq.getD pr.born default < seq.getD pl.born default then
      { peaks := (st.peaks.set ir { pr with died := some idx }).set il { pl with right := pr.right },
        idxToPeak := (st.idxToPeak.set pr.right (some il)).set idx (some il) }
    else
      { peaks := (st.peaks.set il { pl with died := some idx }).set ir { pr with left := pl.left },
        idxToPeak := (st.idxToPeak.set pl.left (some ir)).set idx (some ir) }

/-- The comparator of the index sort in `GetPeaks`.  The source runs
`sort.SliceStable` on the initially ascending `Range(len(seq))` with
strict less `seq[indices[i]] > seq[indices[j]]`; a stable sort under
that comparator orders indices by strictly descending value with ties
in ascending index order, i.e. by this total ordering. -/
def idxLe {F : Type} [LinearOrder F] [Inhabited F] (seq : List F) (i j : ℕ) : Bool :=
  decide (seq.getD j default < seq.getD i default ∨
    (seq.getD i default = seq.getD j default ∧ i ≤ j))

/-- The comparator of the final peak sort in `GetPeaks`
(`peaks[i].born < peaks[j].born`, stable). -/
def bornLe (p q : Peak) : Bool := decide (p.born ≤ q.born)

/-- Source `GetPeaks`: sweep all indices in descending value order,
then sort the peaks by ascending `born`. -/
def GetPeaks {F : Type} [LinearOrder F] [Inhabited F] (seq : List F) : Peaks F :=
  let indices := sortLe (idxLe seq) (List.range seq.length)
  let st := indices.foldl (processIdx seq)
    { peaks := [], idxToPeak := List.replicate seq.length none }
  { peaks := sortLe bornLe st.peaks, seq := seq }

/-- Source `MinMaxPersistence`: running (min, max) over all peak
persistences, starting from `(+Inf, -Inf)`, where the max update is
guarded by `prs > max && prs < +Inf` (infinite persistence is excluded
from the max). -/
def MinMaxPersistence {F : Type} [LinearOrderedField F] [Inhabited F]
    (pks : Peaks F) : EF F × EF F :=
  pks.peaks.foldl
    (fun mm pk =>
      let prs := pk.getPersistence pks.seq
      ((if EF.lt prs mm.1 then prs else mm.1),
       (if EF.lt mm.2 prs && EF.lt prs EF.pinf then prs else mm.2)))
    (EF.pinf, EF.ninf)

/-- Source `GetIndices`: the `born` index of every peak whose
`persistence / maxPersistence >= fracOfMaxPersistence`, in peak-list
order. -/
def GetIndices {F : Type} [LinearOrderedField F] [Inhabited F]
    (pks : Peaks F) (fracOfMaxPersistence : F) : List ℕ :=
  let maxP := (MinMaxPersistence pks).2
  pks.peaks.foldl
    (fun acc pk =>
      if EF.ge (EF.div (pk.getPersistence pks.seq) maxP) (EF.fin fracOfMaxPersistence) then
        acc ++ [pk.born]
      else acc)
    []

/-! ### The sectioned Daubechies-4 lifting DWT (`dwt.go`).

The lifting coefficients are exact irrational real constants
(`sqrt 3` etc.); the definitions are kept generic in the field and
take the constants as parameters so that they stay executable, and the
theorems instantiate them at the source's real closed-form constants. -/

/-- `godsp.Pow2` (the `x < 0` panic branch is unreachable: every
argument in the modelled code is a natural number). -/
def Pow2 (x : ℕ) : ℕ := 2 ^ x

/-- Fuel-driven floor base-2 logarithm; `fuel ≥ n` suffices. -/
def log2fuel : ℕ → ℕ → ℕ
  | 0, _ => 0
  | fuel + 1, n => if 2 ≤ n then log2fuel fuel (n / 2) + 1 else 0

/-- `godsp.Log2`, `int(math.Log2(float64(n)))`: the floor base-2
logarithm (exact for every slice length representable in `float64`). -/
def Log2 (n : ℕ) : ℕ := log2fuel n n

/-- Source `transformSection`: `{start, size int}`. -/
structure TransformSection where
  start : ℕ
  size : ℕ
deriving DecidableEq, Repr

/-- The loop of `getTransformSections`, with explicit fuel (the Go
`for` loop advances `start` by at least 64 each iteration, so `N` units
of fuel are never exhausted). -/
def getTransformSectionsAux (N level : ℕ) : ℕ → ℕ → List TransformSection
  | 0, _ => []
  | fuel + 1, start =>
    if 64 * Pow2 level ≤ N - start then
      TransformSection.mk start (Pow2 (Log2 (N - start))) ::
        getTransformSectionsAux N level fuel (start + Pow2 (Log2 (N - start)))
    else []

/-- Source `getTransformSections`: greedily take the largest
power-of-two chunk while at least `64 * 2^level` samples remain. -/
def getTransformSections (N level : ℕ) : List TransformSection :=
  getTransformSectionsAux N level N 0

section DWT

variable {F : Type} [Field F]

/-- First loop of `split`: `for i := 1; i < len(s); i += 2 { odd[i/2] = s[i] }`. -/
def splitLoop1 (s : List F) (odd : List F) (i : ℕ) : List F :=
  if i < s.length then splitLoop1 s (odd.set (i / 2) (s.getD i 0)) (i + 2) else odd
termination_by s.length - i
decreasing_by omega

/-- Second loop of `split`: `for i := 2; i < len(s); i += 2 { s[i/2] = s[i] }`. -/
def splitLoop2 (s : List F) (i : ℕ) : List F :=
  if i < s.length then splitLoop2 (s.set (i / 2) (s.getD i 0)) (i + 2) else s
termination_by s.length - i
decreasing_by simp; omega

/-- Third loop of `split`: `for i, v := range odd { s[half+i] = v }`. -/
def writeFrom (s : List F) (j : ℕ) : List F → List F
  | [] => s
  | v :: vs => writeFrom (s.set j v) (j + 1) vs

/-- Source `split`: move even-indexed samples to the front half and
odd-indexed samples to the back half, in place. -/
def split (s : List F) : List F :=
  let half := s.length / 2
  writeFrom (splitLoop2 s 2) half (splitLoop1 s (List.replicate half 0) 1)

/-- Update 1 of `daubechies4`: `s[n] = s[n] + sqrt(3)*s[half+n]`. -/
def u1loop (sq3 : F) (half : ℕ) (s : List F) (n : ℕ) : List F :=
  if n < half then
    u1loop sq3 half (s.set n (s.getD n 0 + sq3 * s.getD (half + n) 0)) (n + 1)
  else s
termination_by half - n
decreasing_by omega

/-- Predict loop of `daubechies4` (run from `n = 1`):
`s[half+n] -= (sqrt(3)/4)*s[n] + ((sqrt(3)-2)/4)*s[n-1]`. -/
def predictLoop (sq3 : F) (half : ℕ) (s : List F) (n : ℕ) : List F :=
  if n < half then
    predictLoop sq3 half
      (s.set (half + n)
        (s.getD (half + n) 0 - sq3 / 4 * s.getD n 0 - (sq3 - 2) / 4 * s.getD (n - 1) 0))
      (n + 1)
  else s
termination_by half - n
decreasing_by omega

/-- Update 2 loop of `daubechies4`: `for n := 0; n < half-1; n++ { s[n] -= s[half+n+1] }`. -/
def u2loop (half : ℕ) (s : List F) (n : ℕ) : List F :=
  if n < half - 1 then
    u2loop half (s.set n (s.getD n 0 - s.getD (half + n + 1) 0)) (n + 1)
  else s
termination_by half - 1 - n
decreasing_by omega

/-- Normalise loop of `daubechies4`: scale `s[n]` by `c1` and then
`s[n+half]` by `c2`, for each `n` in the front half. -/
def normLoop (c1 c2 : F) (half : ℕ) (s : List F) (n : ℕ) : List F :=
  if n < half then
    normLoop c1 c2 half
      (let s1 := s.set n (c1 * s.getD n 0)
       s1.set (n + half) (c2 * s1.getD (n + half) 0))
      (n + 1)
  else s
termination_by half - n
decreasing_by omega

/-- Source `daubechies4` with the lifting constants as parameters
(`sq3 = sqrt 3`, `c1 = (sqrt 3 - 1)/sqrt 2`, `c2 = (sqrt 3 + 1)/sqrt 2`
at the call sites): Update 1, Predict, Update 2, Normalise, in order. -/
def daubechies4 (sq3 c1 c2 : F) (s : List F) : List F :=
  let half := s.length / 2
  let s1 := u1loop sq3 half s 0
  let s2 := s1.set half
    (s1.getD half 0 - sq3 / 4 * s1.getD 0 0 - (sq3 - 2) / 4 * s1.getD (half - 1) 0)
  let s3 := predictLoop sq3 half s2 1
  let s4 := u2loop half s3 0
  let s5 := s4.set (half - 1) (s4.getD (half - 1) 0 - s4.getD half 0)
  normLoop c1 c2 half s5 0

/-- Apply `f` in place to the window `st[start : start+len]`
(Go slicing `t.st[section.start:max]` passes the window by reference). -/
def applyRegion (start len : ℕ) (f : List F → List F) (st : List F) : List F :=
  st.take start ++ f ((st.drop start).take len) ++ st.drop (start + len)

/-- The per-section level loop of the `Daubechies4` constructor:
for `l = level` down to `1`, split then lift `st[start : start+scaleSize]`,
halving `scaleSize` each time. -/
def sectionLevels (sq3 c1 c2 : F) (start : ℕ) : ℕ → ℕ → List F → List F
  | _, 0, st => st
  | scaleSize, l + 1, st =>
    sectionLevels sq3 c1 c2 start (scaleSize / 2) l
      (applyRegion start scaleSize (daubechies4 sq3 c1 c2)
        (applyRegion start scaleSize split st))

/-! #### Characterisation of the `split` loops -/

theorem splitLoop1_length :
    ∀ (fuel : ℕ) (s odd : List F) (i : ℕ), s.length - i ≤ fuel →
      (splitLoop1 s odd i).length = odd.length := by
  intro fuel
  induction fuel with
  | zero =>
    intro s odd i h
    rw [splitLoop1, if_neg (by omega)]
  | succ fuel ih =>
    intro s odd i h
    rw [splitLoop1]
    by_cases hi : i < s.length
    · rw [if_pos hi, ih _ _ _ (by omega), List.length_set]
    · rw [if_neg hi]

theorem splitLoop1_getD :
    ∀ (fuel : ℕ) (s odd : List F) (i j : ℕ), s.length - i ≤ fuel →
      i % 2 = 1 → s.length ≤ 2 * odd.length + 1 →
      (splitLoop1 s odd i).getD j 0 =
        if i ≤ 2 * j + 1 ∧ 2 * j + 1 < s.length then s.getD (2 * j + 1) 0
        else odd.getD j 0 := by
  intro fuel
  induction fuel with
  | zero =>
    intro s odd i j h hodd hlen
    rw [splitLoop1, if_neg (by omega), if_neg (by omega)]
  | succ fuel ih =>
    intro s odd i j h hodd hlen
    rw [splitLoop1]
    by_cases hi : i < s.length
    · rw [if_pos hi, ih _ _ _ j (by omega) (by omega) (by rw [List.length_set]; exact hlen)]
      by_cases c1 : i + 2 ≤ 2 * j + 1 ∧ 2 * j + 1 < s.length
      · rw [if_pos c1, if_pos (by omega)]
      · rw [if_neg c1, getD_set]
        by_cases c2 : i / 2 = j
        · have h2j : 2 * j + 1 = i := by omega
          rw [if_pos ⟨c2, by omega⟩, if_pos (by omega), h2j]
        · rw [if_neg (fun hc => c2 hc.1), if_neg (by omega)]
    · rw [if_neg hi, if_neg (by omega)]

theorem splitLoop2_length :
    ∀ (fuel : ℕ) (s : List F) (i : ℕ), s.length - i ≤ fuel →
      (splitLoop2 s i).length = s.length := by
  intro fuel
  induction fuel with
  | zero =>
    intro s i h
    rw [splitLoop2, if_neg (by omega)]
  | succ fuel ih =>
    intro s i h
    rw [splitLoop2]
    by_cases hi : i < s.length
    · rw [if_pos hi, ih _ _ (by simp; omega), List.length_set]
    · rw [if_neg hi]

theorem splitLoop2_getD :
    ∀ (fuel : ℕ) (s : List F) (i j : ℕ), s.length - i ≤ fuel →
      i % 2 = 0 → 2 ≤ i →
      (splitLoop2 s i).getD j 0 =
        if i ≤ 2 * j ∧ 2 * j < s.length then s.getD (2 * j) 0
        else s.getD j 0 := by
  intro fuel
  induction fuel with
  | zero =>
    intro s i j h hev h2
    rw [splitLoop2, if_neg (by omega), if_neg (by omega)]
  | succ fuel ih =>
    intro s i j h hev h2
    rw [splitLoop2]
    by_cases hi : i < s.length
    · rw [if_pos hi, ih _ _ j (by simp; omega) (by omega) (by omega)]
      rw [List.length_set]
      by_cases c1 : i + 2 ≤ 2 * j ∧ 2 * j < s.length
      · rw [if_pos c1, if_pos (by omega), getD_set, if_neg (by omega)]
      · rw [if_neg c1, getD_set]
        by_cases c2 : i / 2 = j
        · have h2j : 2 * j = i := by omega
          rw [if_pos ⟨c2, by omega⟩, if_pos (by omega), h2j]
        · rw [if_neg (fun hc => c2 hc.1), if_neg (by omega)]
    · rw [if_neg hi, if_neg (by omega)]

theorem writeFrom_length :
    ∀ (vs : List F) (s : List F) (j : ℕ), (writeFrom s j vs).length = s.length := by
  intro vs
  induction vs with
  | nil => intro s j; rw [writeFrom]
  | cons v vs ih => intro s j; rw [writeFrom, ih, List.length_set]

theorem writeFrom_getD :
    ∀ (vs : List F) (s : List F) (j k : ℕ),
      (writeFrom s j vs).getD k 0 =
        if j ≤ k ∧ k < j + vs.length ∧ k < s.length then vs.getD (k - j) 0
        else s.getD k 0 := by
  intro vs
  induction vs with
  | nil =>
    intro s j k
    rw [writeFrom, if_neg (by simp; omega)]
  | cons v vs ih =>
    intro s j k
    rw [writeFrom, ih, List.length_set]
    by_cases c1 : j + 1 ≤ k ∧ k < j + 1 + vs.length ∧ k < s.length
    · rw [if_pos c1, if_pos (by simp; omega)]
      have hk : k - j = (k - (j + 1)) + 1 := by omega
      rw [hk]
      rfl
    · rw [if_neg c1, getD_set]
      by_cases c2 : j = k
      · subst c2
        by_cases c3 : j < s.length
        · rw [if_pos ⟨rfl, c3⟩, if_pos (by simp; omega), Nat.sub_self]
          rfl
        · rw [if_neg (fun hc => c3 hc.2), if_neg (by simp; omega)]
      · rw [if_neg (fun hc => c2 hc.1), if_neg (by simp; omega)]

theorem split_length (s : List F) : (split s).length = s.length := by
  rw [split, writeFrom_length, splitLoop2_length s.length s 2 (by omega)]

theorem split_getD_front (s : List F) (h : ℕ) (hs : s.length = 2 * h) (j : ℕ) (hj : j < h) :
    (split s).getD j 0 = s.getD (2 * j) 0 := by
  rw [split]
  have hhalf : s.length / 2 = h := by omega
  rw [hhalf, writeFrom_getD, if_neg ?_]
  · rw [splitLoop2_getD s.length s 2 j (by omega) (by omega) (by omega)]
    by_cases c : 2 ≤ 2 * j ∧ 2 * j < s.length
    · rw [if_pos c]
    · have hj0 : j = 0 := by omega
      rw [if_neg c, hj0]
  · intro hc
    omega

theorem split_getD_back (s : List F) (h : ℕ) (hs : s.length = 2 * h) (j : ℕ) (hj : j < h) :
    (split s).getD (h + j) 0 = s.getD (2 * j + 1) 0 := by
  rw [split]
  have hhalf : s.length / 2 = h := by omega
  rw [hhalf, writeFrom_getD]
  have hlodd : (splitLoop1 s (List.replicate h 0) 1).length = h := by
    rw [splitLoop1_length s.length s _ 1 (by omega), List.length_replicate]
  have hl2 : (splitLoop2 s 2).length = s.length := splitLoop2_length s.length s 2 (by omega)
  rw [if_pos (by rw [hlodd, hl2]; omega)]
  have hsub : h + j - h = j := by omega
  rw [hsub, splitLoop1_getD s.length s _ 1 j (by omega) (by omega)
    (by rw [List.length_replicate]; omega)]
  rw [if_pos (by omega)]

/-! #### Characterisation of the `daubechies4` loops -/

theorem u1loop_length :
    ∀ (fuel : ℕ) (sq3 : F) (half : ℕ) (s : List F) (n : ℕ), half - n ≤ fuel →
      (u1loop sq3 half s n).length = s.length := by
  intro fuel
  induction fuel with
  | zero =>
    intro sq3 half s n h
    rw [u1loop, if_neg (by omega)]
  | succ fuel ih =>
    intro sq3 half s n h
    rw [u1loop]
    by_cases hn : n < half
    · rw [if_pos hn, ih _ _ _ _ (by omega), List.length_set]
    · rw [if_neg hn]

theorem u1loop_getD :
    ∀ (fuel : ℕ) (sq3 : F) (half : ℕ) (s : List F) (n j : ℕ), half - n ≤ fuel →
      half ≤ s.length →
      (u1loop sq3 half s n).getD j 0 =
        if n ≤ j ∧ j < half then s.getD j 0 + sq3 * s.getD (half + j) 0
        else s.getD j 0 := by
  intro fuel
  induction fuel with
  | zero =>
    intro sq3 half s n j h hlen
    rw [u1loop, if_neg (by omega), if_neg (by omega)]
  | succ fuel ih =>
    intro sq3 half s n j h hlen
    rw [u1loop]
    by_cases hn : n < half
    · rw [if_pos hn, ih _ _ _ _ j (by omega) (by rw [List.length_set]; exact hlen)]
      by_cases c1 : n + 1 ≤ j ∧ j < half
      · rw [if_pos c1, getD_set_ne _ _ _ (by omega), getD_set_ne _ _ _ (by omega),
          if_pos (by omega)]
      · rw [if_neg c1, getD_set]
        by_cases c2 : n = j
        · rw [if_pos ⟨c2, by omega⟩, if_pos (by omega), c2]
        · rw [if_neg (fun hc => c2 hc.1), if_neg (by omega)]
    · rw [if_neg hn, if_neg (by omega)]

theorem predictLoop_length :
    ∀ (fuel : ℕ) (sq3 : F) (half : ℕ) (s : List F) (n : ℕ), half - n ≤ fuel →
      (predictLoop sq3 half s n).length = s.length := by
  intro fuel
  induction fuel with
  | zero =>
    intro sq3 half s n h
    rw [predictLoop, if_neg (by omega)]
  | succ fuel ih =>
    intro sq3 half s n h
    rw [predictLoop]
    by_cases hn : n < half
    · rw [if_pos hn, ih _ _ _ _ (by omega), List.length_set]
    · rw [if_neg hn]

theorem predictLoop_getD :
    ∀ (fuel : ℕ) (sq3 : F) (half : ℕ) (s : List F) (n j : ℕ), half - n ≤ fuel →
      2 * half ≤ s.length → 1 ≤ n →
      (predictLoop sq3 half s n).getD j 0 =
        if half + n ≤ j ∧ j < 2 * half then
          s.getD j 0 - sq3 / 4 * s.getD (j - half) 0 - (sq3 - 2) / 4 * s.getD (j - half - 1) 0
        else s.getD j 0 := by
  intro fuel
  induction fuel with
  | zero =>
    intro sq3 half s n j h hlen hn1
    rw [predictLoop, if_neg (by omega), if_neg (by omega)]
  | succ fuel ih =>
    intro sq3 half s n j h hlen hn1
    rw [predictLoop]
    by_cases hn : n < half
    · rw [if_pos hn, ih _ _ _ _ j (by omega) (by rw [List.length_set]; exact hlen) (by omega)]
      by_cases c1 : half + (n + 1) ≤ j ∧ j < 2 * half
      · rw [if_pos c1, getD_set_ne _ _ _ (by omega), getD_set_ne _ _ _ (by omega),
          getD_set_ne _ _ _ (by omega), if_pos (by omega)]
      · rw [if_neg c1, getD_set]
        by_cases c2 : half + n = j
        · rw [if_pos ⟨c2, by omega⟩, if_pos (by omega), ← c2]
          have e1 : half + n - half = n := by omega
          rw [e1]
        · rw [if_neg (fun hc => c2 hc.1), if_neg (by omega)]
    · rw [if_neg hn, if_neg (by omega)]

theorem u2loop_length :
    ∀ (fuel : ℕ) (half : ℕ) (s : List F) (n : ℕ), half - 1 - n ≤ fuel →
      (u2loop half s n).length = s.length := by
  intro fuel
  induction fuel with
  | zero =>
    intro half s n h
    rw [u2loop, if_neg (by omega)]
  | succ fuel ih =>
    intro half s n h
    rw [u2loop]
    by_cases hn : n < half - 1
    · rw [if_pos hn, ih _ _ _ (by omega), List.length_set]
    · rw [if_neg hn]

theorem u2loop_getD :
    ∀ (fuel : ℕ) (half : ℕ) (s : List F) (n j : ℕ), half - 1 - n ≤ fuel →
      half ≤ s.length →
      (u2loop half s n).getD j 0 =
        if n ≤ j ∧ j < half - 1 then s.getD j 0 - s.getD (half + j + 1) 0
        else s.getD j 0 := by
  intro fuel
  induction fuel with
  | zero =>
    intro half s n j h hlen
    rw [u2loop, if_neg (by omega), if_neg (by omega)]
  | succ fuel ih =>
    intro half s n j h hlen
    rw [u2loop]
    by_cases hn : n < half - 1
    · rw [if_pos hn, ih _ _ _ j (by omega) (by rw [List.length_set]; exact hlen)]
      by_cases c1 : n + 1 ≤ j ∧ j < half - 1
      · rw [if_pos c1, getD_set_ne _ _ _ (by omega), getD_set_ne _ _ _ (by omega),
          if_pos (by omega)]
      · rw [if_neg c1, getD_set]
        by_cases c2 : n = j
        · rw [if_pos ⟨c2, by omega⟩, if_pos (by omega), c2]
        · rw [if_neg (fun hc => c2 hc.1), if_neg (by omega)]
    · rw [if_neg hn, if_neg (by omega)]

theorem normLoop_length :
    ∀ (fuel : ℕ) (c1 c2 : F) (half : ℕ) (s : List F) (n : ℕ), half - n ≤ fuel →
      (normLoop c1 c2 half s n).length = s.length := by
  intro fuel
  induction fuel with
  | zero =>
    intro c1 c2 half s n h
    rw [normLoop, if_neg (by omega)]
  | succ fuel ih =>
    intro c1 c2 half s n h
    rw [normLoop]
    by_cases hn : n < half
    · rw [if_pos hn, ih _ _ _ _ _ (by omega)]
      simp
    · rw [if_neg hn]

theorem normLoop_getD :
    ∀ (fuel : ℕ) (c1 c2 : F) (half : ℕ) (s : List F) (n j : ℕ), half - n ≤ fuel →
      2 * half ≤ s.length →
      (normLoop c1 c2 half s n).getD j 0 =
        if n ≤ j ∧ j < half then c1 * s.getD j 0
        else if half + n ≤ j ∧ j < 2 * half then c2 * s.getD j 0
        else s.getD j 0 := by
  intro fuel
  induction fuel with
  | zero =>
    intro c1 c2 half s n j h hlen
    rw [normLoop, if_neg (by omega), if_neg (by omega), if_neg (by omega)]
  | succ fuel ih =>
    intro c1 c2 half s n j h hlen
    rw [normLoop]
    by_cases hn : n < half
    · rw [if_pos hn]
      have hinner : ((s.set n (c1 * s.getD n 0)).set (n + half)
          (c2 * (s.set n (c1 * s.getD n 0)).getD (n + half) 0)) =
          ((s.set n (c1 * s.getD n 0)).set (n + half) (c2 * s.getD (n + half) 0)) := by
        rw [getD_set_ne _ _ _ (by omega)]
      rw [hinner, ih _ _ _ _ _ j (by omega) (by simp; exact hlen)]
      by_cases c1h : n + 1 ≤ j ∧ j < half
      · rw [if_pos c1h, getD_set_ne _ _ _ (by omega), getD_set_ne _ _ _ (by omega),
          if_pos (by omega)]
      · rw [if_neg c1h]
        by_cases c2h : half + (n + 1) ≤ j ∧ j < 2 * half
        · rw [if_pos c2h, getD_set_ne _ _ _ (show n + half ≠ j by omega),
            getD_set_ne _ _ _ (show n ≠ j by omega),
            if_neg (by omega), if_pos (by omega)]
        · rw [if_neg c2h, getD_set]
          by_cases c3 : n + half = j
          · rw [if_pos ⟨c3, by simp only [List.length_set]; omega⟩,
              if_neg (by omega), if_pos (by omega), ← c3]
          · rw [if_neg (fun hc => c3 hc.1), getD_set]
            by_cases c4 : n = j
            · rw [if_pos ⟨c4, by omega⟩, if_pos (by omega), c4]
            · rw [if_neg (fun hc => c4 hc.1), if_neg (by omega), if_neg (by omega)]
    · rw [if_neg hn, if_neg (by omega), if_neg (by omega)]

/-! #### Spec-side descriptions of the transform pass.

These definitions follow the wording of the specification (section 4.1:
split as a deinterleave, then Update 1, Predict, Update 2, Normalise as
whole-array steps); they are compared with the loop-level embedding of
the source. -/

theorem ext_getD {α : Type} (l₁ l₂ : List α) (d : α) (hlen : l₁.length = l₂.length)
    (h : ∀ n, n < l₁.length → l₁.getD n d = l₂.getD n d) : l₁ = l₂ := by
  apply List.ext_getElem hlen
  intro n h₁ h₂
  have := h n h₁
  rwa [List.getD_eq_getElem l₁ d h₁, List.getD_eq_getElem l₂ d h₂] at this

theorem getD_map_range (n j : ℕ) (f : ℕ → F) :
    ((List.range n).map f).getD j 0 = if j < n then f j else 0 := by
  by_cases h : j < n
  · rw [List.getD_eq_getElem?_getD, List.getElem?_map, List.getElem?_range h, if_pos h]
    rfl
  · rw [List.getD_eq_getElem?_getD, List.getElem?_map,
      List.getElem?_eq_none (by simpa using Nat.le_of_not_lt h), if_neg h]
    rfl

/-- Spec split: even-indexed samples, in order, then odd-indexed samples. -/
def specSplit (s : List F) : List F :=
  (List.range (s.length / 2)).map (fun j => s.getD (2 * j) 0) ++
    (List.range (s.length / 2)).map (fun j => s.getD (2 * j + 1) 0)

/-- Spec Update 1: `s[i] += sqrt(3)*s[half+i]` on the whole front half. -/
def specUpdate1 (sq3 : F) (s : List F) : List F :=
  (List.range s.length).map (fun j =>
    if j < s.length / 2 then s.getD j 0 + sq3 * s.getD (s.length / 2 + j) 0 else s.getD j 0)

/-- Spec Predict: `s[half] -= (sqrt(3)/4)*s[0] + ((sqrt(3)-2)/4)*s[half-1]`,
and `s[half+i] -= (sqrt(3)/4)*s[i] + ((sqrt(3)-2)/4)*s[i-1]` for `i = 1..half-1`. -/
def specPredict (sq3 : F) (s : List F) : List F :=
  (List.range s.length).map (fun j =>
    if j = s.length / 2 then
      s.getD j 0 - sq3 / 4 * s.getD 0 0 - (sq3 - 2) / 4 * s.getD (s.length / 2 - 1) 0
    else if s.length / 2 < j then
      s.getD j 0 - sq3 / 4 * s.getD (j - s.length / 2) 0 -
        (sq3 - 2) / 4 * s.getD (j - s.length / 2 - 1) 0
    else s.getD j 0)

/-- Spec Update 2: `s[i] -= s[half+i+1]` for `i = 0..half-2`, then
`s[half-1] -= s[half]`. -/
def specUpdate2 (s : List F) : List F :=
  (List.range s.length).map (fun j =>
    if j < s.length / 2 - 1 then s.getD j 0 - s.getD (s.length / 2 + j + 1) 0
    else if j = s.length / 2 - 1 then s.getD j 0 - s.getD (s.length / 2) 0
    else s.getD j 0)

/-- Spec Normalise: front half scaled by `c1`, back half by `c2`. -/
def specNormalise (c1 c2 : F) (s : List F) : List F :=
  (List.range s.length).map (fun j =>
    if j < s.length / 2 then c1 * s.getD j 0 else c2 * s.getD j 0)

theorem specSplit_length (s : List F) (h : ℕ) (hs : s.length = 2 * h) :
    (specSplit s).length = s.length := by
  simp [specSplit]; omega

theorem split_eq_specSplit (s : List F) (h : ℕ) (hs : s.length = 2 * h) :
    split s = specSplit s := by
  apply ext_getD _ _ 0 (by rw [split_length, specSplit_length s h hs])
  intro n hn
  rw [split_length] at hn
  have hh : s.length / 2 = h := by omega
  by_cases hfront : n < h
  · rw [split_getD_front s h hs n hfront, specSplit, getD_append_left _ _ _ _ (by simp; omega),
      getD_map_range, hh, if_pos hfront]
  · have hn2 : n = h + (n - h) := by omega
    rw [hn2, split_getD_back s h hs (n - h) (by omega), specSplit,
      getD_append_right _ _ _ _ (by simp; omega)]
    have : h + (n - h) - ((List.range (s.length / 2)).map (fun j => s.getD (2 * j) 0)).length
        = n - h := by simp; omega
    rw [this, getD_map_range, hh, if_pos (by omega)]

theorem u1_stage (sq3 : F) (half : ℕ) (t : List F) (ht : t.length = 2 * half) :
    u1loop sq3 half t 0 = specUpdate1 sq3 t := by
  apply ext_getD _ _ 0
    (by rw [u1loop_length half sq3 half t 0 (by omega)]; simp [specUpdate1])
  intro n hn
  rw [u1loop_length half sq3 half t 0 (by omega)] at hn
  have hh : t.length / 2 = half := by omega
  rw [u1loop_getD half sq3 half t 0 n (by omega) (by omega),
    specUpdate1, getD_map_range, if_pos hn, hh]
  by_cases hc : n < half
  · rw [if_pos ⟨by omega, hc⟩, if_pos hc]
  · rw [if_neg (by omega), if_neg hc]

theorem predict_stage (sq3 : F) (half : ℕ) (t : List F) (ht : t.length = 2 * half)
    (h1 : 1 ≤ half) :
    predictLoop sq3 half
      (t.set half (t.getD half 0 - sq3 / 4 * t.getD 0 0 - (sq3 - 2) / 4 * t.getD (half - 1) 0)) 1
      = specPredict sq3 t := by
  apply ext_getD _ _ 0
    (by rw [predictLoop_length half sq3 half _ 1 (by omega), List.length_set]
        simp [specPredict])
  intro n hn
  rw [predictLoop_length half sq3 half _ 1 (by omega), List.length_set] at hn
  have hh : t.length / 2 = half := by omega
  rw [predictLoop_getD half sq3 half _ 1 n (by omega)
    (by rw [List.length_set]; omega) (by omega)]
  rw [specPredict, getD_map_range, if_pos hn, hh]
  by_cases hc : half + 1 ≤ n ∧ n < 2 * half
  · rw [if_pos hc, getD_set_ne _ _ _ (by omega), getD_set_ne _ _ _ (by omega),
      getD_set_ne _ _ _ (by omega), if_neg (by omega), if_pos (by omega)]
  · rw [if_neg hc, getD_set]
    by_cases hc2 : half = n
    · rw [if_pos ⟨hc2, by omega⟩, if_pos (by omega), ← hc2]
    · rw [if_neg (fun hx => hc2 hx.1), if_neg (by omega), if_neg (by omega)]

theorem u2_stage (half : ℕ) (t : List F) (ht : t.length = 2 * half) (h1 : 1 ≤ half) :
    (u2loop half t 0).set (half - 1)
      ((u2loop half t 0).getD (half - 1) 0 - (u2loop half t 0).getD half 0)
      = specUpdate2 t := by
  have hu2len : (u2loop half t 0).length = t.length := u2loop_length half half t 0 (by omega)
  apply ext_getD _ _ 0 (by rw [List.length_set, hu2len]; simp [specUpdate2])
  intro n hn
  rw [List.length_set, hu2len] at hn
  have hh : t.length / 2 = half := by omega
  rw [specUpdate2, getD_map_range, if_pos hn, hh, getD_set]
  by_cases hc : half - 1 = n
  · rw [if_pos ⟨hc, by omega⟩, u2loop_getD half half t 0 (half - 1) (by omega) (by omega),
      u2loop_getD half half t 0 half (by omega) (by omega),
      if_neg (by omega), if_neg (by omega), if_neg (by omega), if_pos hc.symm, ← hc]
  · rw [if_neg (fun hx => hc hx.1), u2loop_getD half half t 0 n (by omega) (by omega)]
    by_cases hc2 : n < half - 1
    · rw [if_pos ⟨by omega, hc2⟩, if_pos hc2]
    · rw [if_neg (by omega), if_neg hc2, if_neg (fun hx => hc hx.symm)]

theorem norm_stage (c1 c2 : F) (half : ℕ) (t : List F) (ht : t.length = 2 * half) :
    normLoop c1 c2 half t 0 = specNormalise c1 c2 t := by
  apply ext_getD _ _ 0
    (by rw [normLoop_length half c1 c2 half t 0 (by omega)]; simp [specNormalise])
  intro n hn
  rw [normLoop_length half c1 c2 half t 0 (by omega)] at hn
  have hh : t.length / 2 = half := by omega
  rw [normLoop_getD half c1 c2 half t 0 n (by omega) (by omega),
    specNormalise, getD_map_range, if_pos hn, hh]
  by_cases hc : n < half
  · rw [if_pos ⟨by omega, hc⟩, if_pos hc]
  · rw [if_neg (by omega), if_pos ⟨by omega, by omega⟩, if_neg hc]

theorem specUpdate1_length (sq3 : F) (s : List F) : (specUpdate1 sq3 s).length = s.length := by
  simp [specUpdate1]

theorem specPredict_length (sq3 : F) (s : List F) : (specPredict sq3 s).length = s.length := by
  simp [specPredict]

theorem specUpdate2_length (s : List F) : (specUpdate2 s).length = s.length := by
  simp [specUpdate2]

theorem specNormalise_length (c1 c2 : F) (s : List F) :
    (specNormalise c1 c2 s).length = s.length := by
  simp [specNormalise]

/-- The source lifting step equals the four spec steps in the spec's
order, on any even-length window. -/
theorem daubechies4_eq_spec (sq3 c1 c2 : F) (s : List F) (h : ℕ)
    (hs : s.length = 2 * h) (h1 : 1 ≤ h) :
    daubechies4 sq3 c1 c2 s =
      specNormalise c1 c2 (specUpdate2 (specPredict sq3 (specUpdate1 sq3 s))) := by
  unfold daubechies4
  simp only []
  have hh : s.length / 2 = h := by omega
  rw [hh]
  rw [u1_stage sq3 h s hs]
  rw [predict_stage sq3 h (specUpdate1 sq3 s) (by rw [specUpdate1_length]; exact hs) h1]
  rw [u2_stage h (specPredict sq3 (specUpdate1 sq3 s))
    (by rw [specPredict_length, specUpdate1_length]; exact hs) h1]
  rw [norm_stage c1 c2 h (specUpdate2 (specPredict sq3 (specUpdate1 sq3 s)))
    (by rw [specUpdate2_length, specPredict_length, specUpdate1_length]; exact hs)]

/-! #### Inverse lifting steps (documented inverses of the spec steps). -/

/-- Inverse of `specNormalise`: divide the halves by the two constants. -/
def invNormalise (c1 c2 : F) (s : List F) : List F :=
  (List.range s.length).map (fun j =>
    if j < s.length / 2 then s.getD j 0 / c1 else s.getD j 0 / c2)

/-- Inverse of `specUpdate2`: add back what Update 2 subtracted. -/
def invUpdate2 (s : List F) : List F :=
  (List.range s.length).map (fun j =>
    if j < s.length / 2 - 1 then s.getD j 0 + s.getD (s.length / 2 + j + 1) 0
    else if j = s.length / 2 - 1 then s.getD j 0 + s.getD (s.length / 2) 0
    else s.getD j 0)

/-- Inverse of `specPredict`: add back what Predict subtracted. -/
def invPredict (sq3 : F) (s : List F) : List F :=
  (List.range s.length).map (fun j =>
    if j = s.length / 2 then
      s.getD j 0 + sq3 / 4 * s.getD 0 0 + (sq3 - 2) / 4 * s.getD (s.length / 2 - 1) 0
    else if s.length / 2 < j then
      s.getD j 0 + sq3 / 4 * s.getD (j - s.length / 2) 0 +
        (sq3 - 2) / 4 * s.getD (j - s.length / 2 - 1) 0
    else s.getD j 0)

/-- Inverse of `specUpdate1`: subtract what Update 1 added. -/
def invUpdate1 (sq3 : F) (s : List F) : List F :=
  (List.range s.length).map (fun j =>
    if j < s.length / 2 then s.getD j 0 - sq3 * s.getD (s.length / 2 + j) 0 else s.getD j 0)

/-- Inverse of the split: re-interleave the two halves. -/
def invSplit (s : List F) : List F :=
  (List.range s.length).map (fun j =>
    if j % 2 = 0 then s.getD (j / 2) 0 else s.getD (s.length / 2 + j / 2) 0)

/-- The documented inverse of one whole transform pass. -/
def invPass (sq3 c1 c2 : F) (s : List F) : List F :=
  invSplit (invUpdate1 sq3 (invPredict sq3 (invUpdate2 (invNormalise c1 c2 s))))

theorem invNormalise_length (c1 c2 : F) (s : List F) :
    (invNormalise c1 c2 s).length = s.length := by
  simp [invNormalise]

theorem invUpdate2_length (s : List F) : (invUpdate2 s).length = s.length := by
  simp [invUpdate2]

theorem invPredict_length (sq3 : F) (s : List F) : (invPredict sq3 s).length = s.length := by
  simp [invPredict]

theorem invUpdate1_length (sq3 : F) (s : List F) : (invUpdate1 sq3 s).length = s.length := by
  simp [invUpdate1]

theorem invSplit_length (s : List F) : (invSplit s).length = s.length := by
  simp [invSplit]

theorem invNormalise_specNormalise (c1 c2 : F) (hc1 : c1 ≠ 0) (hc2 : c2 ≠ 0)
    (t : List F) (half : ℕ) (ht : t.length = 2 * half) :
    invNormalise c1 c2 (specNormalise c1 c2 t) = t := by
  apply ext_getD _ _ 0 (by rw [invNormalise_length, specNormalise_length])
  intro n hn
  rw [invNormalise_length, specNormalise_length] at hn
  have hlen : (specNormalise c1 c2 t).length = t.length := specNormalise_length c1 c2 t
  have hgt : ∀ j, j < t.length →
      (specNormalise c1 c2 t).getD j 0 =
        if j < half then c1 * t.getD j 0 else c2 * t.getD j 0 := by
    intro j hj
    rw [specNormalise, getD_map_range, if_pos hj]
    have : t.length / 2 = half := by omega
    rw [this]
  rw [invNormalise, getD_map_range, hlen, if_pos hn]
  have hh2 : t.length / 2 = half := by omega
  rw [hh2, hgt n hn]
  by_cases hc : n < half
  · rw [if_pos hc, if_pos hc, mul_div_cancel_left₀ _ hc1]
  · rw [if_neg hc, if_neg hc, mul_div_cancel_left₀ _ hc2]

theorem invUpdate2_specUpdate2 (t : List F) (half : ℕ) (ht : t.length = 2 * half)
    (h1 : 1 ≤ half) :
    invUpdate2 (specUpdate2 t) = t := by
  apply ext_getD _ _ 0 (by rw [invUpdate2_length, specUpdate2_length])
  intro n hn
  rw [invUpdate2_length, specUpdate2_length] at hn
  have hh2 : t.length / 2 = half := by omega
  have hgt : ∀ j, j < t.length →
      (specUpdate2 t).getD j 0 =
        if j < half - 1 then t.getD j 0 - t.getD (half + j + 1) 0
        else if j = half - 1 then t.getD j 0 - t.getD half 0
        else t.getD j 0 := by
    intro j hj
    rw [specUpdate2, getD_map_range, if_pos hj, hh2]
  rw [invUpdate2, getD_map_range, specUpdate2_length, if_pos hn, hh2]
  by_cases hc : n < half - 1
  · rw [if_pos hc, hgt n hn, if_pos hc, hgt (half + n + 1) (by omega),
      if_neg (by omega), if_neg (by omega)]
    ring
  · rw [if_neg hc]
    by_cases hc2 : n = half - 1
    · rw [if_pos hc2, hgt n hn, if_neg hc, if_pos hc2, hgt half (by omega),
        if_neg (by omega), if_neg (by omega)]
      ring
    · rw [if_neg hc2, hgt n hn, if_neg hc, if_neg hc2]

theorem invPredict_specPredict (sq3 : F) (t : List F) (half : ℕ) (ht : t.length = 2 * half)
    (h1 : 1 ≤ half) :
    invPredict sq3 (specPredict sq3 t) = t := by
  apply ext_getD _ _ 0 (by rw [invPredict_length, specPredict_length])
  intro n hn
  rw [invPredict_length, specPredict_length] at hn
  have hh2 : t.length / 2 = half := by omega
  have hgt : ∀ j, j < t.length →
      (specPredict sq3 t).getD j 0 =
        if j = half then
          t.getD j 0 - sq3 / 4 * t.getD 0 0 - (sq3 - 2) / 4 * t.getD (half - 1) 0
        else if half < j then
          t.getD j 0 - sq3 / 4 * t.getD (j - half) 0 - (sq3 - 2) / 4 * t.getD (j - half - 1) 0
        else t.getD j 0 := by
    intro j hj
    rw [specPredict, getD_map_range, if_pos hj, hh2]
  rw [invPredict, getD_map_range, specPredict_length, if_pos hn, hh2]
  by_cases hc : n = half
  · rw [if_pos hc, hgt n hn, if_pos hc, hgt 0 (by omega), if_neg (by omega), if_neg (by omega),
      hgt (half - 1) (by omega), if_neg (by omega), if_neg (by omega)]
    ring
  · rw [if_neg hc]
    by_cases hc2 : half < n
    · rw [if_pos hc2, hgt n hn, if_neg hc, if_pos hc2, hgt (n - half) (by omega),
        if_neg (by omega), if_neg (by omega), hgt (n - half - 1) (by omega),
        if_neg (by omega), if_neg (by omega)]
      ring
    · rw [if_neg hc2, hgt n hn, if_neg hc, if_neg hc2]

theorem invUpdate1_specUpdate1 (sq3 : F) (t : List F) (half : ℕ) (ht : t.length = 2 * half) :
    invUpdate1 sq3 (specUpdate1 sq3 t) = t := by
  apply ext_getD _ _ 0 (by rw [invUpdate1_length, specUpdate1_length])
  intro n hn
  rw [invUpdate1_length, specUpdate1_length] at hn
  have hh2 : t.length / 2 = half := by omega
  have hgt : ∀ j, j < t.length →
      (specUpdate1 sq3 t).getD j 0 =
        if j < half then t.getD j 0 + sq3 * t.getD (half + j) 0 else t.getD j 0 := by
    intro j hj
    rw [specUpdate1, getD_map_range, if_pos hj, hh2]
  rw [invUpdate1, getD_map_range, specUpdate1_length, if_pos hn, hh2]
  by_cases hc : n < half
  · rw [if_pos hc, hgt n hn, if_pos hc, hgt (half + n) (by omega), if_neg (by omega)]
    ring
  · rw [if_neg hc, hgt n hn, if_neg hc]

theorem invSplit_specSplit (s : List F) (half : ℕ) (hs : s.length = 2 * half) :
    invSplit (specSplit s) = s := by
  have hslen : (specSplit s).length = s.length := specSplit_length s half hs
  apply ext_getD _ _ 0 (by rw [invSplit_length, hslen])
  intro n hn
  rw [invSplit_length, hslen] at hn
  have hh2 : s.length / 2 = half := by omega
  rw [invSplit, getD_map_range, hslen, if_pos hn, hh2]
  by_cases hc : n % 2 = 0
  · rw [if_pos hc, specSplit, getD_append_left _ _ _ _ (by simp; omega), getD_map_range, hh2,
      if_pos (by omega)]
    have : 2 * (n / 2) = n := by omega
    rw [this]
  · rw [if_neg hc, specSplit, getD_append_right _ _ _ _ (by simp; omega)]
    have harg : half + n / 2 - ((List.range (s.length / 2)).map
        (fun j => s.getD (2 * j) 0)).length = n / 2 := by simp; omega
    rw [harg, getD_map_range, hh2, if_pos (by omega)]
    have : 2 * (n / 2) + 1 = n := by omega
    rw [this]

/-- One full pass (split then lifting) is undone exactly by the
documented inverse pass, on any even-length window. -/
theorem invPass_pass (sq3 c1 c2 : F) (hc1 : c1 ≠ 0) (hc2 : c2 ≠ 0)
    (s : List F) (h : ℕ) (hs : s.length = 2 * h) (h1 : 1 ≤ h) :
    invPass sq3 c1 c2 (daubechies4 sq3 c1 c2 (split s)) = s := by
  rw [split_eq_specSplit s h hs,
    daubechies4_eq_spec sq3 c1 c2 (specSplit s) h (specSplit_length s h hs ▸ hs) h1]
  have l0 : (specSplit s).length = 2 * h := by rw [specSplit_length s h hs]; exact hs
  have l1 : (specUpdate1 sq3 (specSplit s)).length = 2 * h := by
    rw [specUpdate1_length]; exact l0
  have l2 : (specPredict sq3 (specUpdate1 sq3 (specSplit s))).length = 2 * h := by
    rw [specPredict_length]; exact l1
  have l3 : (specUpdate2 (specPredict sq3 (specUpdate1 sq3 (specSplit s)))).length = 2 * h := by
    rw [specUpdate2_length]; exact l2
  rw [invPass, invNormalise_specNormalise c1 c2 hc1 hc2 _ h l3,
    invUpdate2_specUpdate2 _ h l2 h1, invPredict_specPredict sq3 _ h l1 h1,
    invUpdate1_specUpdate1 sq3 _ h l0, invSplit_specSplit s h hs]

/-! #### Window algebra for in-place region updates -/

theorem window_length (start len : ℕ) (st : List F) (hrange : start + len ≤ st.length) :
    ((st.drop start).take len).length = len := by
  simp [List.length_take, List.length_drop]; omega

theorem applyRegion_length (start len : ℕ) (f : List F → List F) (st : List F)
    (hrange : start + len ≤ st.length)
    (hf : (f ((st.drop start).take len)).length = ((st.drop start).take len).length) :
    (applyRegion start len f st).length = st.length := by
  simp [applyRegion, List.length_append, hf, List.length_take, List.length_drop]
  omega

theorem applyRegion_comp (start len : ℕ) (f g : List F → List F) (st : List F)
    (hrange : start + len ≤ st.length)
    (hg : (g ((st.drop start).take len)).length = ((st.drop start).take len).length) :
    applyRegion start len f (applyRegion start len g st) =
      applyRegion start len (fun w => f (g w)) st := by
  have hA : (st.take start).length = start := by
    simp [List.length_take]; omega
  have hgw : (g ((st.drop start).take len)).length = len := by
    rw [hg, window_length start len st hrange]
  rw [applyRegion, applyRegion, applyRegion]
  simp only [List.append_assoc]
  have h2 : (st.take start ++ (g ((st.drop start).take len) ++ st.drop (start + len))).drop start
      = g ((st.drop start).take len) ++ st.drop (start + len) := List.drop_left' hA
  have h1 : (st.take start ++ (g ((st.drop start).take len) ++ st.drop (start + len))).take start
      = st.take start := List.take_left' hA
  have h3 : ((st.take start ++ (g ((st.drop start).take len) ++ st.drop (start + len))).drop
        start).take len = g ((st.drop start).take len) := by
    rw [h2]; exact List.take_left' hgw
  have h4 : (st.take start ++ (g ((st.drop start).take len) ++ st.drop (start + len))).drop
      (start + len) = st.drop (start + len) := by
    rw [← List.append_assoc]
    exact List.drop_left' (by simp [List.length_append, hA, hgw])
  rw [h1, h3, h4]

theorem applyRegion_id (start len : ℕ) (f : List F → List F) (st : List F)
    (hrange : start + len ≤ st.length)
    (hfw : f ((st.drop start).take len) = (st.drop start).take len) :
    applyRegion start len f st = st := by
  rw [applyRegion, hfw]
  rw [show st.drop (start + len) = ((st.drop start).drop len) by rw [List.drop_drop]]
  rw [List.append_assoc, List.take_append_drop, List.take_append_drop]

theorem daubechies4_length (sq3 c1 c2 : F) (s : List F) :
    (daubechies4 sq3 c1 c2 s).length = s.length := by
  unfold daubechies4
  simp only []
  rw [normLoop_length (s.length / 2) c1 c2 _ _ 0 (by omega), List.length_set,
    u2loop_length (s.length / 2) _ _ 0 (by omega),
    predictLoop_length (s.length / 2) sq3 _ _ 1 (by omega), List.length_set,
    u1loop_length (s.length / 2) sq3 _ _ 0 (by omega)]

theorem sectionLevels_length (sq3 c1 c2 : F) (start : ℕ) :
    ∀ (lvl scaleSize : ℕ) (st : List F), start + scaleSize ≤ st.length →
      (sectionLevels sq3 c1 c2 start scaleSize lvl st).length = st.length := by
  intro lvl
  induction lvl with
  | zero => intro scaleSize st h; rfl
  | succ lvl ih =>
    intro scaleSize st h
    rw [sectionLevels]
    have hsplit : (applyRegion start scaleSize split st).length = st.length :=
      applyRegion_length start scaleSize split st h (split_length _)
    have hd4 : (applyRegion start scaleSize (daubechies4 sq3 c1 c2)
        (applyRegion start scaleSize split st)).length = st.length := by
      rw [applyRegion_length start scaleSize _ _ (by omega) (daubechies4_length sq3 c1 c2 _),
        hsplit]
    rw [ih (scaleSize / 2) _ (by omega)]
    exact hd4

/-- The inverse of the per-section level loop: undo the passes in the
reverse order, on the same sequence of window sizes. -/
def sectionLevelsInv (sq3 c1 c2 : F) (start : ℕ) : ℕ → ℕ → List F → List F
  | _, 0, st => st
  | scaleSize, l + 1, st =>
    applyRegion start scaleSize (invPass sq3 c1 c2)
      (sectionLevelsInv sq3 c1 c2 start (scaleSize / 2) l st)

/-- The per-section multi-level transform is exactly inverted by
`sectionLevelsInv` whenever the section size is a power of two at
least `2^level`. -/
theorem sectionLevels_roundtrip (sq3 c1 c2 : F) (hc1 : c1 ≠ 0) (hc2 : c2 ≠ 0) (start : ℕ) :
    ∀ (lvl k scaleSize : ℕ) (st : List F),
      scaleSize = 2 ^ k → lvl ≤ k → start + scaleSize ≤ st.length →
      sectionLevelsInv sq3 c1 c2 start scaleSize lvl
        (sectionLevels sq3 c1 c2 start scaleSize lvl st) = st := by
  intro lvl
  induction lvl with
  | zero => intro k scaleSize st hpow hlk h; rfl
  | succ lvl ih =>
    intro k scaleSize st hpow hlk h
    rw [sectionLevels, sectionLevelsInv]
    have hsplitlen : (applyRegion start scaleSize split st).length = st.length :=
      applyRegion_length start scaleSize split st h (split_length _)
    have hst2len : (applyRegion start scaleSize (daubechies4 sq3 c1 c2)
        (applyRegion start scaleSize split st)).length = st.length := by
      rw [applyRegion_length start scaleSize _ _ (by omega) (daubechies4_length sq3 c1 c2 _),
        hsplitlen]
    have hk1 : 1 ≤ k := by omega
    have hpow2 : 2 * 2 ^ (k - 1) = 2 ^ k := by
      rw [← pow_succ']
      rw [show k - 1 + 1 = k by omega]
    have hhalf : scaleSize / 2 = 2 ^ (k - 1) := by
      rw [hpow, ← hpow2]
      omega
    have hinner := ih (k - 1) (scaleSize / 2)
      (applyRegion start scaleSize (daubechies4 sq3 c1 c2) (applyRegion start scaleSize split st))
      hhalf (by omega) (by rw [hst2len]; omega)
    rw [hinner]
    rw [applyRegion_comp start scaleSize (daubechies4 sq3 c1 c2) split st h
      (split_length ((st.drop start).take scaleSize))]
    rw [applyRegion_comp start scaleSize (invPass sq3 c1 c2)
      (fun w => daubechies4 sq3 c1 c2 (split w)) st h
      (by simp only [daubechies4_length, split_length])]
    apply applyRegion_id start scaleSize _ st h
    have hwlen : ((st.drop start).take scaleSize).length = 2 * 2 ^ (k - 1) := by
      rw [window_length start scaleSize st h, hpow, ← hpow2]
    exact invPass_pass sq3 c1 c2 hc1 hc2 _ (2 ^ (k - 1)) hwlen Nat.one_le_two_pow

/-- Source `Transform`: working buffer, level count, section list. -/
structure Transform (F : Type) where
  st : List F
  level : ℕ
  sections : List TransformSection

/-- Source constructor `Daubechies4`: copy the input, compute the
sections, and run the level loop on each section in order. -/
def Daubechies4 (sq3 c1 c2 : F) (s : List F) (level : ℕ) : Transform F :=
  let sections := getTransformSections s.length level
  { st := sections.foldl (fun st sec => sectionLevels sq3 c1 c2 sec.start sec.size level st) s,
    level := level,
    sections := sections }

/-- Source `getSectionCoefficients`: for `l = 1..level`, band `l-1` is
`st[start+half : start+2*half]` with `half` starting at `size/2` and
halving. -/
def sectionBands (st : List F) (start : ℕ) : ℕ → ℕ → List (List F)
  | _, 0 => []
  | half, l + 1 => ((st.drop (start + half)).take half) :: sectionBands st start (half / 2) l

def getSectionCoefficients (t : Transform F) (sec : TransformSection) : List (List F) :=
  sectionBands t.st sec.start (sec.size / 2) t.level

/-- Source `GetCoefficients`: per level, concatenate that level's band
across all sections in section order. -/
def GetCoefficients (t : Transform F) : List (List F) :=
  t.sections.foldl
    (fun cfs sec => List.zipWith (fun a b => a ++ b) cfs (getSectionCoefficients t sec))
    (List.replicate t.level [])

/-- `godsp.DownSample`: keep every `n`-th sample.  The Go function
panics unless `n` divides `len(x)`; every call site modelled here
satisfies that, so only the non-panicking branch is embedded. -/
def DownSample (x : List F) (n : ℕ) : List F :=
  (List.range (x.length / n)).map (fun j => x.getD (j * n) 0)

/-- The inner loop of `GetDownSampledCoefficients` over one section's
bands: band `i` is appended downsampled by `2^(level-(i+1))` when
`i < level-1`, and bands with `i >= level-1` are skipped. -/
def dsAppendAux (level : ℕ) : ℕ → List (List F) → List (List F) → List (List F)
  | _, ds, [] => ds
  | _, [], _ :: _ => []
  | i, d :: ds, cf :: cfs =>
    (if i < level - 1 then d ++ DownSample cf (Pow2 (level - (i + 1))) else d) ::
      dsAppendAux level (i + 1) ds cfs

/-- Source `GetDownSampledCoefficients`. -/
def GetDownSampledCoefficients (t : Transform F) : List (List F) :=
  t.sections.foldl
    (fun dscfs sec => dsAppendAux t.level 0 dscfs (getSectionCoefficients t sec))
    (List.replicate t.level [])

/-- Source `GetDecomposition`: the raw working buffer. -/
def GetDecomposition (t : Transform F) : List F := t.st

end DWT

/-! ### Properties of `Log2` and of the greedy section partition -/

theorem Pow2_eq (x : ℕ) : Pow2 x = 2 ^ x := rfl

theorem log2fuel_spec : ∀ (fuel n : ℕ), n ≤ fuel → 1 ≤ n →
    2 ^ log2fuel fuel n ≤ n ∧ n < 2 ^ (log2fuel fuel n + 1) := by
  intro fuel
  induction fuel with
  | zero => intro n h h1; omega
  | succ fuel ih =>
    intro n h h1
    rw [log2fuel]
    by_cases h2 : 2 ≤ n
    · rw [if_pos h2]
      constructor
      · have h3 := (ih (n / 2) (by omega) (by omega)).1
        rw [pow_succ]
        omega
      · have h4 := (ih (n / 2) (by omega) (by omega)).2
        rw [pow_succ]
        omega
    · rw [if_neg h2]
      constructor
      · simpa using h1
      · simpa using (by omega : n < 2)

theorem Log2_pow_le (n : ℕ) (h : 1 ≤ n) : 2 ^ Log2 n ≤ n :=
  (log2fuel_spec n n le_rfl h).1

theorem Log2_lt_pow (n : ℕ) (h : 1 ≤ n) : n < 2 ^ (Log2 n + 1) :=
  (log2fuel_spec n n le_rfl h).2

theorem le_Log2 (k n : ℕ) (h : 2 ^ k ≤ n) : k ≤ Log2 n := by
  have h1 : 1 ≤ n := le_trans Nat.one_le_two_pow h
  have h2 := Log2_lt_pow n h1
  by_contra hc
  push_neg at hc
  have h3 : 2 ^ (Log2 n + 1) ≤ 2 ^ k := Nat.pow_le_pow_right (by omega) (by omega)
  omega

/-- Consecutive sections are contiguous: each starts where the previous
one ends. -/
def Contiguous : ℕ → List TransformSection → Prop
  | _, [] => True
  | start, sec :: rest => sec.start = start ∧ Contiguous (start + sec.size) rest

def sumSizes (secs : List TransformSection) : ℕ := (secs.map TransformSection.size).sum

/-- Invariants of the greedy section loop, for any fuel and any start:
the produced sections are contiguous from `start`, their sizes sum to
at most `N - start`, and each section starts at a point with at least
`64 * 2^level` samples remaining, has size `2^(Log2 remaining)`, lies
inside the sequence, and has size exponent at least `level`. -/
theorem getTransformSectionsAux_inv (N level : ℕ) :
    ∀ (fuel start : ℕ),
      Contiguous start (getTransformSectionsAux N level fuel start) ∧
      sumSizes (getTransformSectionsAux N level fuel start) ≤ N - start ∧
      ∀ sec ∈ getTransformSectionsAux N level fuel start,
        64 * 2 ^ level ≤ N - sec.start ∧
        sec.size = 2 ^ Log2 (N - sec.start) ∧
        sec.start + sec.size ≤ N ∧ level ≤ Log2 (N - sec.start) := by
  intro fuel
  induction fuel with
  | zero =>
    intro start
    rw [getTransformSectionsAux]
    exact ⟨trivial, by simp [sumSizes], by simp⟩
  | succ fuel ih =>
    intro start
    rw [getTransformSectionsAux]
    by_cases hc : 64 * Pow2 level ≤ N - start
    · rw [if_pos hc]
      rw [Pow2_eq] at hc
      have hp1 : 1 ≤ 2 ^ level := Nat.one_le_two_pow
      have h1 : 1 ≤ N - start := by omega
      have hsz : 2 ^ Log2 (N - start) ≤ N - start := Log2_pow_le _ h1
      obtain ⟨ihc, ihs, ihsec⟩ := ih (start + Pow2 (Log2 (N - start)))
      refine ⟨⟨rfl, ihc⟩, ?_, ?_⟩
      · simp only [sumSizes, List.map_cons, List.sum_cons] at ihs ⊢
        rw [Pow2_eq] at ihs ⊢
        omega
      · intro sec hsec
        rcases List.mem_cons.mp hsec with rfl | hsec
        · dsimp only
          refine ⟨hc, by rw [Pow2_eq], ?_, ?_⟩
          · simp only [Pow2_eq]
            omega
          · exact le_Log2 level _ (by omega)
        · exact ihsec sec hsec
    · rw [if_neg hc]
      exact ⟨trivial, by simp [sumSizes], by simp⟩

theorem getTransformSections_inv (N level : ℕ) :
    Contiguous 0 (getTransformSections N level) ∧
    sumSizes (getTransformSections N level) ≤ N ∧
    ∀ sec ∈ getTransformSections N level,
      64 * 2 ^ level ≤ N - sec.start ∧
      sec.size = 2 ^ Log2 (N - sec.start) ∧
      sec.start + sec.size ≤ N ∧ level ≤ Log2 (N - sec.start) := by
  have h := getTransformSectionsAux_inv N level N 0
  rw [getTransformSections]
  simpa using h

section DWT2

variable {F : Type} [Field F]

/-- Undoing the per-section transforms in reverse section order undoes
the whole multi-section transform. -/
theorem foldr_inv_foldl (sq3 c1 c2 : F) (hc1 : c1 ≠ 0) (hc2 : c2 ≠ 0) (level : ℕ) :
    ∀ (secs : List TransformSection) (st : List F),
      (∀ sec ∈ secs, sec.start + sec.size ≤ st.length ∧ ∃ k, level ≤ k ∧ sec.size = 2 ^ k) →
      secs.foldr (fun sec st' => sectionLevelsInv sq3 c1 c2 sec.start sec.size level st')
        (secs.foldl (fun st' sec => sectionLevels sq3 c1 c2 sec.start sec.size level st') st)
        = st := by
  intro secs
  induction secs with
  | nil => intro st h; rfl
  | cons sec rest ih =>
    intro st h
    obtain ⟨hrange, k, hk, hsize⟩ := h sec (List.mem_cons_self sec rest)
    have hstlen : (sectionLevels sq3 c1 c2 sec.start sec.size level st).length = st.length :=
      sectionLevels_length sq3 c1 c2 sec.start level sec.size st hrange
    show sectionLevelsInv sq3 c1 c2 sec.start sec.size level
        (rest.foldr _ (rest.foldl _ (sectionLevels sq3 c1 c2 sec.start sec.size level st))) = st
    rw [ih (sectionLevels sq3 c1 c2 sec.start sec.size level st) ?_]
    · exact sectionLevels_roundtrip sq3 c1 c2 hc1 hc2 sec.start level k sec.size st hsize hk
        hrange
    · intro s2 hs2
      obtain ⟨hr2, hk2⟩ := h s2 (List.mem_cons_of_mem sec hs2)
      exact ⟨by rw [hstlen]; exact hr2, hk2⟩

end DWT2

/-! ### Facts about the source's real lifting constants -/

theorem sqrt3_gt_one : (1 : ℝ) < Real.sqrt 3 := by
  have h := Real.sqrt_lt_sqrt (by norm_num : (0:ℝ) ≤ 1) (by norm_num : (1:ℝ) < 3)
  rwa [Real.sqrt_one] at h

theorem rc1_ne_zero : ((Real.sqrt 3 - 1) / Real.sqrt 2 : ℝ) ≠ 0 := by
  apply div_ne_zero
  · have := sqrt3_gt_one
    intro h
    nlinarith
  · exact ne_of_gt (Real.sqrt_pos.mpr (by norm_num))

theorem rc2_ne_zero : ((Real.sqrt 3 + 1) / Real.sqrt 2 : ℝ) ≠ 0 := by
  apply div_ne_zero
  · have := Real.sqrt_nonneg (3:ℝ)
    intro h
    nlinarith
  · exact ne_of_gt (Real.sqrt_pos.mpr (by norm_num))

/-! ### Projections of the constructed transform -/

section DWT3

variable {F : Type} [Field F]

theorem Daubechies4_sections (sq3 c1 c2 : F) (s : List F) (level : ℕ) :
    (Daubechies4 sq3 c1 c2 s level).sections = getTransformSections s.length level := rfl

theorem Daubechies4_level (sq3 c1 c2 : F) (s : List F) (level : ℕ) :
    (Daubechies4 sq3 c1 c2 s level).level = level := rfl

theorem Daubechies4_st (sq3 c1 c2 : F) (s : List F) (level : ℕ) :
    (Daubechies4 sq3 c1 c2 s level).st =
      (getTransformSections s.length level).foldl
        (fun st sec => sectionLevels sq3 c1 c2 sec.start sec.size level st) s := rfl

theorem foldl_sectionLevels_length (sq3 c1 c2 : F) (level : ℕ) :
    ∀ (secs : List TransformSection) (st : List F),
      (∀ sec ∈ secs, sec.start + sec.size ≤ st.length) →
      (secs.foldl (fun st' sec => sectionLevels sq3 c1 c2 sec.start sec.size level st')
        st).length = st.length := by
  intro secs
  induction secs with
  | nil => intro st h; rfl
  | cons sec rest ih =>
    intro st h
    have h1 := h sec (List.mem_cons_self sec rest)
    have hlen := sectionLevels_length sq3 c1 c2 sec.start level sec.size st h1
    show (rest.foldl _ (sectionLevels sq3 c1 c2 sec.start sec.size level st)).length = st.length
    rw [ih (sectionLevels sq3 c1 c2 sec.start sec.size level st)
      (fun s2 hs2 => by rw [hlen]; exact h s2 (List.mem_cons_of_mem sec hs2))]
    exact hlen

theorem Daubechies4_st_length (sq3 c1 c2 : F) (s : List F) (level : ℕ) :
    (Daubechies4 sq3 c1 c2 s level).st.length = s.length := by
  rw [Daubechies4_st]
  apply foldl_sectionLevels_length
  intro sec hsec
  exact ((getTransformSections_inv s.length level).2.2 sec hsec).2.2.1

theorem getTransformSections_nil (N level : ℕ) (h : N < 64 * 2 ^ level) :
    getTransformSections N level = [] := by
  rw [getTransformSections]
  cases N with
  | zero => rw [getTransformSectionsAux]
  | succ m =>
    rw [getTransformSectionsAux, if_neg (by rw [Pow2_eq]; omega)]

end DWT3

set_option maxRecDepth 8192

/-! ### Claim theorems for the wavelet transform -/

/-- Claim C3: the section list is built greedily from index 0 taking a
section of size `2^floor(log2 remaining)` while at least `64 * 2^level`
samples remain; consequently consecutive sections are contiguous and
non-overlapping, every section size is an exact power of two, and the
sizes sum to at most `N`. -/
theorem C3_sections (N level : ℕ) :
    Contiguous 0 (getTransformSections N level) ∧
    (∀ sec ∈ getTransformSections N level, ∃ k, sec.size = 2 ^ k) ∧
    sumSizes (getTransformSections N level) ≤ N ∧
    ∀ sec ∈ getTransformSections N level,
      64 * 2 ^ level ≤ N - sec.start ∧ sec.size = 2 ^ Log2 (N - sec.start) := by
  obtain ⟨hc, hs, hsec⟩ := getTransformSections_inv N level
  exact ⟨hc, fun sec h => ⟨Log2 (N - sec.start), (hsec sec h).2.1⟩, hs,
    fun sec h => ⟨(hsec sec h).1, (hsec sec h).2.1⟩⟩

/-- Claim C6 counterexample: on an 8-sample input with level 1 the
transform has no sections (8 < 64*2), so `GetCoefficients` returns one
band of length 0, not of length 4 as the claim states. -/
theorem C6_counterexample :
    (GetCoefficients (Daubechies4 (Real.sqrt 3) ((Real.sqrt 3 - 1) / Real.sqrt 2)
      ((Real.sqrt 3 + 1) / Real.sqrt 2) (List.replicate 8 (0:ℝ)) 1)).map List.length ≠ [4] := by
  intro h
  have h0 : (GetCoefficients (Daubechies4 (Real.sqrt 3) ((Real.sqrt 3 - 1) / Real.sqrt 2)
      ((Real.sqrt 3 + 1) / Real.sqrt 2) (List.replicate 8 (0:ℝ)) 1)).map List.length
      = [0] := rfl
  rw [h0] at h
  exact absurd (List.cons.inj h).1 (by norm_num)

/-- Claim C6 (amended): for every real input sequence of length 8,
`Daubechies4(s, 1)` followed by `GetCoefficients` returns exactly one
coefficient band, and that band is empty (length 0), because an
8-sample input is below the `64 * 2^1 = 128` sample minimum for a
section, so no section is transformed. -/
theorem C6_amended (s : List ℝ) (h : s.length = 8) :
    (GetCoefficients (Daubechies4 (Real.sqrt 3) ((Real.sqrt 3 - 1) / Real.sqrt 2)
      ((Real.sqrt 3 + 1) / Real.sqrt 2) s 1)).map List.length = [0] := by
  have hsec : (Daubechies4 (Real.sqrt 3) ((Real.sqrt 3 - 1) / Real.sqrt 2)
      ((Real.sqrt 3 + 1) / Real.sqrt 2) s 1).sections = [] := by
    rw [Daubechies4_sections, h]
    rfl
  rw [GetCoefficients, hsec, List.foldl_nil, Daubechies4_level]
  rfl

/-- Witness for the amended C6 at a concrete 8-sample input. -/
theorem C6_amended_witness :
    (GetCoefficients (Daubechies4 (Real.sqrt 3) ((Real.sqrt 3 - 1) / Real.sqrt 2)
      ((Real.sqrt 3 + 1) / Real.sqrt 2) ([1, 2, 3, 4, 5, 6, 7, 8] : List ℝ) 1)).map List.length
      = [0] :=
  C6_amended [1, 2, 3, 4, 5, 6, 7, 8] rfl

/-- Claim C7: for every `level ≥ 0` and every real sequence shorter than
`64 * 2^level`, `Daubechies4` constructs a transform with zero sections,
and `GetCoefficients` returns the defined empty result: `level` bands,
each empty, with no failure. -/
theorem C7_short_input (s : List ℝ) (level : ℕ) (h : s.length < 64 * 2 ^ level) :
    (Daubechies4 (Real.sqrt 3) ((Real.sqrt 3 - 1) / Real.sqrt 2)
      ((Real.sqrt 3 + 1) / Real.sqrt 2) s level).sections = [] ∧
    GetCoefficients (Daubechies4 (Real.sqrt 3) ((Real.sqrt 3 - 1) / Real.sqrt 2)
      ((Real.sqrt 3 + 1) / Real.sqrt 2) s level) = List.replicate level [] := by
  have hsec : (Daubechies4 (Real.sqrt 3) ((Real.sqrt 3 - 1) / Real.sqrt 2)
      ((Real.sqrt 3 + 1) / Real.sqrt 2) s level).sections = [] := by
    rw [Daubechies4_sections, getTransformSections_nil s.length level h]
  refine ⟨hsec, ?_⟩
  rw [GetCoefficients, hsec, List.foldl_nil, Daubechies4_level]

/-- Witness for C7 at a concrete short input and level. -/
theorem C7_witness :
    (Daubechies4 (Real.sqrt 3) ((Real.sqrt 3 - 1) / Real.sqrt 2)
      ((Real.sqrt 3 + 1) / Real.sqrt 2) ([1, 2, 3] : List ℝ) 2).sections = [] ∧
    GetCoefficients (Daubechies4 (Real.sqrt 3) ((Real.sqrt 3 - 1) / Real.sqrt 2)
      ((Real.sqrt 3 + 1) / Real.sqrt 2) ([1, 2, 3] : List ℝ) 2) = List.replicate 2 [] :=
  C7_short_input [1, 2, 3] 2 (by norm_num)

/-- Claim C1 (code bug evidence): on a 128-sample input at level 1,
`GetDownSampledCoefficients` returns its single (deepest) band empty,
while the actual level-1 coefficient band of the section has 64
samples: the loop `if i < t.level-1` never appends the deepest band,
contradicting the claim (and the function's own documentation) that the
deepest band is returned with its full content. -/
theorem C1_deepest_band_dropped :
    GetDownSampledCoefficients (Daubechies4 (Real.sqrt 3) ((Real.sqrt 3 - 1) / Real.sqrt 2)
      ((Real.sqrt 3 + 1) / Real.sqrt 2) (List.replicate 128 (0:ℝ)) 1) = [[]] ∧
    (getSectionCoefficients (Daubechies4 (Real.sqrt 3) ((Real.sqrt 3 - 1) / Real.sqrt 2)
      ((Real.sqrt 3 + 1) / Real.sqrt 2) (List.replicate 128 (0:ℝ)) 1)
      ⟨0, 128⟩).map List.length = [64] := by
  constructor
  · rfl
  · have h1 : getSectionCoefficients (Daubechies4 (Real.sqrt 3)
        ((Real.sqrt 3 - 1) / Real.sqrt 2) ((Real.sqrt 3 + 1) / Real.sqrt 2)
        (List.replicate 128 (0:ℝ)) 1) ⟨0, 128⟩
        = [((Daubechies4 (Real.sqrt 3) ((Real.sqrt 3 - 1) / Real.sqrt 2)
            ((Real.sqrt 3 + 1) / Real.sqrt 2) (List.replicate 128 (0:ℝ)) 1).st.drop
            (0 + 64)).take 64] := rfl
    rw [h1, List.map_cons, List.map_nil, List.length_take, List.length_drop,
      Daubechies4_st_length, List.length_replicate]
    norm_num

/-- Claim C5: on every even-length window, one transform pass is the
source `split` (which deinterleaves the evens to the front half and the
odds to the back half, in order) followed by the Daubechies-4 lifting
step in the exact order Update 1, Predict, Update 2, Normalise with the
constants `sqrt 3`, `(sqrt 3 - 1)/sqrt 2`, `(sqrt 3 + 1)/sqrt 2`. -/
theorem C5_pass (s : List ℝ) (h : ℕ) (hs : s.length = 2 * h) (h1 : 1 ≤ h) :
    split s = specSplit s ∧
    daubechies4 (Real.sqrt 3) ((Real.sqrt 3 - 1) / Real.sqrt 2)
        ((Real.sqrt 3 + 1) / Real.sqrt 2) (split s)
      = specNormalise ((Real.sqrt 3 - 1) / Real.sqrt 2) ((Real.sqrt 3 + 1) / Real.sqrt 2)
          (specUpdate2 (specPredict (Real.sqrt 3) (specUpdate1 (Real.sqrt 3) (specSplit s)))) := by
  refine ⟨split_eq_specSplit s h hs, ?_⟩
  rw [split_eq_specSplit s h hs]
  exact daubechies4_eq_spec _ _ _ _ h (by rw [specSplit_length s h hs]; exact hs) h1

/-- Witness for C5 at a concrete 4-sample window. -/
theorem C5_witness :
    split ([1, 2, 3, 4] : List ℝ) = specSplit ([1, 2, 3, 4] : List ℝ) ∧
    daubechies4 (Real.sqrt 3) ((Real.sqrt 3 - 1) / Real.sqrt 2)
        ((Real.sqrt 3 + 1) / Real.sqrt 2) (split ([1, 2, 3, 4] : List ℝ))
      = specNormalise ((Real.sqrt 3 - 1) / Real.sqrt 2) ((Real.sqrt 3 + 1) / Real.sqrt 2)
          (specUpdate2 (specPredict (Real.sqrt 3)
            (specUpdate1 (Real.sqrt 3) (specSplit ([1, 2, 3, 4] : List ℝ))))) :=
  C5_pass [1, 2, 3, 4] 2 rfl (by norm_num)

/-- Claim C9: the lifting transform is invertible: applying the
documented inverse lifting steps, per section in reverse order, to the
`GetDecomposition()` output reconstructs the original sequence exactly
(the real-number model carries no rounding, so the reconstruction is
within any tolerance, in particular `1e-9` relative error). -/
theorem C9_inverse (s : List ℝ) (level : ℕ) :
    (Daubechies4 (Real.sqrt 3) ((Real.sqrt 3 - 1) / Real.sqrt 2)
      ((Real.sqrt 3 + 1) / Real.sqrt 2) s level).sections.foldr
      (fun sec st => sectionLevelsInv (Real.sqrt 3) ((Real.sqrt 3 - 1) / Real.sqrt 2)
        ((Real.sqrt 3 + 1) / Real.sqrt 2) sec.start sec.size level st)
      (GetDecomposition (Daubechies4 (Real.sqrt 3) ((Real.sqrt 3 - 1) / Real.sqrt 2)
        ((Real.sqrt 3 + 1) / Real.sqrt 2) s level)) = s := by
  rw [Daubechies4_sections, GetDecomposition, Daubechies4_st]
  apply foldr_inv_foldl _ _ _ rc1_ne_zero rc2_ne_zero level
  intro sec hsec
  obtain ⟨h1, h2, h3, h4⟩ := (getTransformSections_inv s.length level).2.2 sec hsec
  exact ⟨h3, Log2 (s.length - sec.start), h4, h2⟩



end Godsp

namespace Godsp

/-! ### Spec-side description of `GetIndices` -/

section PeaksSpec

variable {F : Type} [LinearOrderedField F] [Inhabited F]

/-- The finite persistences (`seq[born] - seq[died]` of the dead peaks),
in peak-list order. -/
def finitePersistences (pks : Peaks F) : List F :=
  pks.peaks.filterMap (fun p =>
    match p.died with
    | none => none
    | some d => some (pks.seq.getD p.born default - pks.seq.getD d default))

/-- The maximum finite persistence, `none` when every peak is infinite. -/
def specMaxFin (pks : Peaks F) : Option F :=
  match finitePersistences pks with
  | [] => none
  | x :: xs => some (xs.foldl max x)

/-- Spec-side membership criterion of `GetIndices`: an infinite peak is
included exactly when some finite persistence exists; a dead peak is
included exactly when the maximum finite persistence is positive and
its persistence is at least `frac` times that maximum. -/
def specIncluded (pks : Peaks F) (frac : F) (p : Peak) : Bool :=
  match p.died, specMaxFin pks with
  | none, some _ => true
  | none, none => false
  | some d, some c =>
    decide (0 < c ∧ frac * c ≤ pks.seq.getD p.born default - pks.seq.getD d default)
  | some _, none => false

theorem MinMaxPersistence_snd (pks : Peaks F) :
    (MinMaxPersistence pks).2 =
      pks.peaks.foldl
        (fun m pk =>
          if EF.lt m (pk.getPersistence pks.seq) && EF.lt (pk.getPersistence pks.seq) EF.pinf
          then pk.getPersistence pks.seq else m) EF.ninf := by
  rw [MinMaxPersistence]
  have h : ∀ (l : List Peak) (mm : EF F × EF F),
      (l.foldl
        (fun mm pk =>
          ((if EF.lt (pk.getPersistence pks.seq) mm.1 then pk.getPersistence pks.seq else mm.1),
           (if EF.lt mm.2 (pk.getPersistence pks.seq) &&
                EF.lt (pk.getPersistence pks.seq) EF.pinf
            then pk.getPersistence pks.seq else mm.2))) mm).2
      = l.foldl
          (fun m pk =>
            if EF.lt m (pk.getPersistence pks.seq) &&
                EF.lt (pk.getPersistence pks.seq) EF.pinf
            then pk.getPersistence pks.seq else m) mm.2 := by
    intro l
    induction l with
    | nil => intro mm; rfl
    | cons pk t ih => intro mm; exact ih _
  exact h pks.peaks (EF.pinf, EF.ninf)

theorem maxfold_eq (pks : Peaks F) : ∀ (l : List Peak) (b : EF F),
    l.foldl
      (fun m pk =>
        if EF.lt m (pk.getPersistence pks.seq) && EF.lt (pk.getPersistence pks.seq) EF.pinf
        then pk.getPersistence pks.seq else m) b
    = (l.filterMap (fun p =>
        match p.died with
        | none => none
        | some d => some (pks.seq.getD p.born default - pks.seq.getD d default))).foldl
        (fun m x => if EF.lt m (EF.fin x) then EF.fin x else m) b := by
  intro l
  induction l with
  | nil => intro b; rfl
  | cons p t ih =>
    intro b
    cases hp : p.died with
    | none =>
      rw [List.foldl_cons, List.filterMap_cons]
      simp only [hp]
      rw [show p.getPersistence pks.seq = EF.pinf by rw [Peak.getPersistence, hp]]
      rw [show EF.lt (EF.pinf : EF F) EF.pinf = false from rfl]
      rw [Bool.and_false, if_neg (by simp)]
      exact ih b
    | some d =>
      rw [List.foldl_cons, List.filterMap_cons]
      simp only [hp]
      rw [show p.getPersistence pks.seq
          = EF.fin (pks.seq.getD p.born default - pks.seq.getD d default) by
        rw [Peak.getPersistence, hp]]
      rw [show EF.lt (EF.fin (pks.seq.getD p.born default - pks.seq.getD d default)) EF.pinf
          = true from rfl]
      rw [Bool.and_true, List.foldl_cons]
      exact ih _

theorem finfold_fin : ∀ (xs : List F) (a : F),
    xs.foldl (fun m x => if EF.lt m (EF.fin x) then EF.fin x else m) (EF.fin a)
      = EF.fin (xs.foldl max a) := by
  intro xs
  induction xs with
  | nil => intro a; rfl
  | cons x t ih =>
    intro a
    rw [List.foldl_cons, List.foldl_cons]
    have hstep : (if EF.lt (EF.fin a) (EF.fin x) then EF.fin x else EF.fin a)
        = EF.fin (max a x) := by
      by_cases h : a < x
      · rw [if_pos (by simp [EF.lt, h]), max_eq_right h.le]
      · rw [if_neg (by simp [EF.lt, h]), max_eq_left (not_lt.mp h)]
    rw [hstep, ih]

theorem foldl_max_ge : ∀ (xs : List F) (a : F),
    a ≤ xs.foldl max a ∧ ∀ y ∈ xs, y ≤ xs.foldl max a := by
  intro xs
  induction xs with
  | nil => intro a; exact ⟨le_rfl, by simp⟩
  | cons x t ih =>
    intro a
    rw [List.foldl_cons]
    obtain ⟨h1, h2⟩ := ih (max a x)
    refine ⟨le_trans (le_max_left a x) h1, ?_⟩
    intro y hy
    rcases List.mem_cons.mp hy with rfl | hy
    · exact le_trans (le_max_right a y) h1
    · exact h2 y hy

theorem foldl_max_mem : ∀ (xs : List F) (a : F), xs.foldl max a = a ∨ xs.foldl max a ∈ xs := by
  intro xs
  induction xs with
  | nil => intro a; exact Or.inl rfl
  | cons x t ih =>
    intro a
    rw [List.foldl_cons]
    rcases ih (max a x) with h | h
    · rcases max_choice a x with hm | hm
      · exact Or.inl (by rw [h, hm])
      · exact Or.inr (by rw [h, hm]; exact List.mem_cons_self x t)
    · exact Or.inr (List.mem_cons_of_mem x h)

/-- `MinMaxPersistence`'s max component is the maximum finite
persistence, `-Inf` when none exists. -/
theorem MinMax_eq_specMaxFin (pks : Peaks F) :
    (MinMaxPersistence pks).2 =
      (match specMaxFin pks with
       | none => EF.ninf
       | some c => EF.fin c) := by
  rw [MinMaxPersistence_snd, maxfold_eq pks pks.peaks EF.ninf, specMaxFin]
  cases hfp : finitePersistences pks with
  | nil =>
    rw [finitePersistences] at hfp
    rw [hfp]
    rfl
  | cons x xs =>
    rw [finitePersistences] at hfp
    rw [hfp, List.foldl_cons]
    rw [show (if EF.lt (EF.ninf : EF F) (EF.fin x) then EF.fin x else EF.ninf)
        = EF.fin x from rfl]
    rw [finfold_fin]

theorem mem_finitePersistences (pks : Peaks F) (y : F) :
    y ∈ finitePersistences pks ↔
      ∃ p ∈ pks.peaks, ∃ d, p.died = some d ∧
        y = pks.seq.getD p.born default - pks.seq.getD d default := by
  rw [finitePersistences, List.mem_filterMap]
  constructor
  · rintro ⟨p, hp, hf⟩
    cases hd : p.died with
    | none => rw [hd] at hf; exact absurd hf (by simp)
    | some d =>
      rw [hd] at hf
      simp only [Option.some.injEq] at hf
      exact ⟨p, hp, d, hd, hf.symm⟩
  · rintro ⟨p, hp, d, hd, hy⟩
    exact ⟨p, hp, by rw [hd, hy]⟩

theorem peak_mem_finitePersistences (pks : Peaks F) (p : Peak) (hp : p ∈ pks.peaks)
    (d : ℕ) (hd : p.died = some d) :
    pks.seq.getD p.born default - pks.seq.getD d default ∈ finitePersistences pks :=
  (mem_finitePersistences pks _).mpr ⟨p, hp, d, hd, rfl⟩

theorem specMaxFin_ge (pks : Peaks F) (c : F) (hc : specMaxFin pks = some c) :
    ∀ y ∈ finitePersistences pks, y ≤ c := by
  rw [specMaxFin] at hc
  cases hfp : finitePersistences pks with
  | nil => rw [hfp] at hc; exact absurd hc (by simp)
  | cons x xs =>
    rw [hfp] at hc
    simp only [Option.some.injEq] at hc
    intro y hy
    rcases List.mem_cons.mp hy with rfl | hy
    · rw [← hc]; exact (foldl_max_ge xs y).1
    · rw [← hc]; exact (foldl_max_ge xs x).2 y hy

theorem specMaxFin_mem (pks : Peaks F) (c : F) (hc : specMaxFin pks = some c) :
    c ∈ finitePersistences pks := by
  rw [specMaxFin] at hc
  cases hfp : finitePersistences pks with
  | nil => rw [hfp] at hc; exact absurd hc (by simp)
  | cons x xs =>
    rw [hfp] at hc
    simp only [Option.some.injEq] at hc
    rcases foldl_max_mem xs x with h | h
    · rw [← hc, h]; exact List.mem_cons_self x xs
    · rw [← hc]; exact List.mem_cons_of_mem x h

theorem specMaxFin_none_no_dead (pks : Peaks F) (hc : specMaxFin pks = none)
    (p : Peak) (hp : p ∈ pks.peaks) (d : ℕ) (hd : p.died = some d) : False := by
  rw [specMaxFin] at hc
  cases hfp : finitePersistences pks with
  | cons x xs => rw [hfp] at hc; exact absurd hc (by simp)
  | nil =>
    have := peak_mem_finitePersistences pks p hp d hd
    rw [hfp] at this
    exact absurd this (by simp)

theorem getIndices_foldl (pks : Peaks F) (frac : F) :
    ∀ (l : List Peak) (acc : List ℕ),
      l.foldl
        (fun acc pk =>
          if EF.ge (EF.div (pk.getPersistence pks.seq) (MinMaxPersistence pks).2)
              (EF.fin frac)
          then acc ++ [pk.born] else acc) acc
      = acc ++ (l.filter (fun pk =>
          EF.ge (EF.div (pk.getPersistence pks.seq) (MinMaxPersistence pks).2)
            (EF.fin frac))).map Peak.born := by
  intro l
  induction l with
  | nil => intro acc; simp
  | cons pk t ih =>
    intro acc
    rw [List.foldl_cons, List.filter_cons]
    by_cases h : EF.ge (EF.div (pk.getPersistence pks.seq) (MinMaxPersistence pks).2)
        (EF.fin frac) = true
    · rw [if_pos h, if_pos h, ih, List.map_cons, List.append_assoc]
      rfl
    · rw [if_neg h, if_neg h, ih]

end PeaksSpec

end Godsp

namespace Godsp

section PeaksSpec2

variable {F : Type} [LinearOrderedField F] [Inhabited F]

/-- The source acceptance test of `GetIndices` coincides with the
spec-side criterion, for peaks whose finite persistences are
nonnegative (as holds for every `GetPeaks` result). -/
theorem criterion_eq (pks : Peaks F) (frac : F)
    (h1 : ∀ p ∈ pks.peaks, ∀ d, p.died = some d →
      0 ≤ pks.seq.getD p.born default - pks.seq.getD d default)
    (pk : Peak) (hmem : pk ∈ pks.peaks) :
    EF.ge (EF.div (pk.getPersistence pks.seq) (MinMaxPersistence pks).2) (EF.fin frac)
      = specIncluded pks frac pk := by
  rw [MinMax_eq_specMaxFin]
  cases hd : pk.died with
  | none =>
    rw [show pk.getPersistence pks.seq = EF.pinf by rw [Peak.getPersistence, hd]]
    cases hc : specMaxFin pks with
    | none =>
      simp only [hc, specIncluded, hd]
      rfl
    | some c =>
      have hc0 : 0 ≤ c := by
        obtain ⟨p, hp, d2, hd2, hy⟩ :=
          (mem_finitePersistences pks c).mp (specMaxFin_mem pks c hc)
        rw [hy]
        exact h1 p hp d2 hd2
      simp only [hc, specIncluded, hd]
      rw [show EF.div EF.pinf (EF.fin c) = if c < 0 then EF.ninf else EF.pinf from rfl]
      rw [if_neg (not_lt.mpr hc0)]
      rfl
  | some d =>
    rw [show pk.getPersistence pks.seq
        = EF.fin (pks.seq.getD pk.born default - pks.seq.getD d default) by
      rw [Peak.getPersistence, hd]]
    cases hc : specMaxFin pks with
    | none => exact (specMaxFin_none_no_dead pks hc pk hmem d hd).elim
    | some c =>
      have ha0 : 0 ≤ pks.seq.getD pk.born default - pks.seq.getD d default :=
        h1 pk hmem d hd
      have hac : pks.seq.getD pk.born default - pks.seq.getD d default ≤ c :=
        specMaxFin_ge pks c hc _ (peak_mem_finitePersistences pks pk hmem d hd)
      simp only [hc, specIncluded, hd]
      by_cases hc0 : c = 0
      · have ha' : pks.seq.getD pk.born default - pks.seq.getD d default = 0 :=
          le_antisymm (hc0 ▸ hac) ha0
        rw [show EF.div (EF.fin (pks.seq.getD pk.born default - pks.seq.getD d default))
            (EF.fin c) = EF.nan by rw [EF.div, if_pos hc0, if_pos ha']]
        rw [show (EF.ge EF.nan (EF.fin frac) : Bool) = false from rfl]
        rw [hc0]
        simp
      · have hcpos : 0 < c := lt_of_le_of_ne (le_trans ha0 hac) (Ne.symm hc0)
        rw [show EF.div (EF.fin (pks.seq.getD pk.born default - pks.seq.getD d default))
            (EF.fin c)
            = EF.fin ((pks.seq.getD pk.born default - pks.seq.getD d default) / c) by
          rw [EF.div, if_neg hc0]]
        rw [show EF.ge (EF.fin ((pks.seq.getD pk.born default
              - pks.seq.getD d default) / c)) (EF.fin frac)
            = decide (frac ≤ (pks.seq.getD pk.born default
              - pks.seq.getD d default) / c) from rfl]
        apply decide_eq_decide.mpr
        rw [le_div_iff hcpos]
        exact ⟨fun h => ⟨hcpos, h⟩, fun h => h.2⟩

end PeaksSpec2

set_option maxRecDepth 8192

/-- Claim C2 counterexample: on the single-hump sequence `[0, 1, 0]`
the only peak has infinite persistence (`died = none`), yet
`GetIndices 0` returns the empty list — the infinite-persistence peak
is not among the returned indices, because `maxPersistence` is `-Inf`
and `Inf / -Inf` is `NaN`, which fails every `>=` comparison. -/
theorem C2_counterexample :
    (GetPeaks ([0, 1, 0] : List ℚ)).peaks.map Peak.died = [none] ∧
    GetIndices (GetPeaks ([0, 1, 0] : List ℚ)) 0 = [] := by decide

/-- Claim C2 (amended): `GetIndices(f)` computes `maxPersistence` as the
maximum finite persistence over all peaks (`-Inf` when none is finite),
and returns, in peak-list (ascending-born) order, the born indices of
exactly those peaks accepted by the IEEE comparison
`persistence / maxPersistence >= f`; equivalently (for the nonnegative
persistences `GetPeaks` produces): a dead peak is returned iff the
maximum finite persistence `c` is positive and its persistence is at
least `f * c`, and an infinite-persistence peak is returned iff at
least one peak has finite persistence — when no peak does (a single
peak), `Inf / -Inf` is `NaN` and the returned list is empty. -/
theorem C2_amended {F : Type} [LinearOrderedField F] [Inhabited F] (pks : Peaks F) (frac : F)
    (h1 : ∀ p ∈ pks.peaks, ∀ d, p.died = some d →
      0 ≤ pks.seq.getD p.born default - pks.seq.getD d default) :
    (MinMaxPersistence pks).2 =
      (match specMaxFin pks with
       | none => EF.ninf
       | some c => EF.fin c) ∧
    GetIndices pks frac = (pks.peaks.filter (specIncluded pks frac)).map Peak.born := by
  refine ⟨MinMax_eq_specMaxFin pks, ?_⟩
  rw [GetIndices]
  rw [getIndices_foldl pks frac pks.peaks [], List.nil_append]
  congr 1
  apply List.filter_congr
  intro pk hmem
  exact criterion_eq pks frac h1 pk hmem

/-- Witness for the amended C2 at a concrete two-peak result. -/
theorem C2_amended_witness :
    (MinMaxPersistence (Peaks.mk [Peak.mk 1 (some 2) 1 1, Peak.mk 3 none 0 6]
        ([1, 3, 2, 5, 2, 4, 1] : List ℚ))).2 =
      (match specMaxFin (Peaks.mk [Peak.mk 1 (some 2) 1 1, Peak.mk 3 none 0 6]
          ([1, 3, 2, 5, 2, 4, 1] : List ℚ)) with
       | none => EF.ninf
       | some c => EF.fin c) ∧
    GetIndices (Peaks.mk [Peak.mk 1 (some 2) 1 1, Peak.mk 3 none 0 6]
        ([1, 3, 2, 5, 2, 4, 1] : List ℚ)) 0 =
      ((Peaks.mk [Peak.mk 1 (some 2) 1 1, Peak.mk 3 none 0 6]
        ([1, 3, 2, 5, 2, 4, 1] : List ℚ)).peaks.filter
          (specIncluded (Peaks.mk [Peak.mk 1 (some 2) 1 1, Peak.mk 3 none 0 6]
            ([1, 3, 2, 5, 2, 4, 1] : List ℚ)) 0)).map Peak.born :=
  C2_amended _ 0 (by
    intro p hp d hd
    rcases List.mem_cons.mp hp with rfl | hp
    · have h2 : (2 : ℕ) = d := Option.some.inj hd
      rw [← h2]
      norm_num [List.getD]
    · rcases List.mem_cons.mp hp with rfl | hp
      · exact absurd hd (by simp)
      · exact absurd hp (by simp))

end Godsp

namespace Godsp

/-- Claim C4: in the persistence sweep, when the processed index has
both neighbours assigned to two different peaks, the peak whose birth
value is strictly greater absorbs the other: the dominant peak keeps
its fields except that its span is extended over the absorbed peak's
span, and the absorbed peak's `died` is set to the current (saddle)
index; when the two birth values are exactly equal, the surviving peak
is the one with the numerically larger `born` index (the right-hand
peak) and the left-hand peak dies. -/
theorem C4_merge {F : Type} [LinearOrder F] [Inhabited F] (seq : List F) (st : PState)
    (idx il ir : ℕ)
    (h0 : 0 < idx) (h1 : idx < seq.length - 1)
    (hl : st.idxToPeak.getD (idx - 1) none = some il)
    (hr : st.idxToPeak.getD (idx + 1) none = some ir)
    (hil : il < st.peaks.length) (hir : ir < st.peaks.length) (hne : il ≠ ir) :
    (seq.getD (st.peaks.getD ir default).born default
        < seq.getD (st.peaks.getD il default).born default →
      ((processIdx seq st idx).peaks.getD ir default).died = some idx ∧
      ((processIdx seq st idx).peaks.getD il default).died
        = (st.peaks.getD il default).died ∧
      ((processIdx seq st idx).peaks.getD il default).born
        = (st.peaks.getD il default).born ∧
      ((processIdx seq st idx).peaks.getD il default).left
        = (st.peaks.getD il default).left ∧
      ((processIdx seq st idx).peaks.getD il default).right
        = (st.peaks.getD ir default).right) ∧
    (seq.getD (st.peaks.getD il default).born default
        = seq.getD (st.peaks.getD ir default).born default →
      (st.peaks.getD il default).born < (st.peaks.getD ir default).born →
      ((processIdx seq st idx).peaks.getD il default).died = some idx ∧
      ((processIdx seq st idx).peaks.getD ir default).died
        = (st.peaks.getD ir default).died ∧
      ((processIdx seq st idx).peaks.getD ir default).born
        = (st.peaks.getD ir default).born ∧
      ((processIdx seq st idx).peaks.getD ir default).left
        = (st.peaks.getD il default).left ∧
      ((processIdx seq st idx).peaks.getD ir default).right
        = (st.peaks.getD ir default).right) ∧
    (seq.getD (st.peaks.getD il default).born default
        < seq.getD (st.peaks.getD ir default).born default →
      ((processIdx seq st idx).peaks.getD il default).died = some idx ∧
      ((processIdx seq st idx).peaks.getD ir default).died
        = (st.peaks.getD ir default).died ∧
      ((processIdx seq st idx).peaks.getD ir default).born
        = (st.peaks.getD ir default).born ∧
      ((processIdx seq st idx).peaks.getD ir default).left
        = (st.peaks.getD il default).left ∧
      ((processIdx seq st idx).peaks.getD ir default).right
        = (st.peaks.getD ir default).right) := by
  have hproc : processIdx seq st idx =
      (if seq.getD (st.peaks.getD ir default).born default
          < seq.getD (st.peaks.getD il default).born default then
        PState.mk
          ((st.peaks.set ir { st.peaks.getD ir default with died := some idx }).set il
            { st.peaks.getD il default with right := (st.peaks.getD ir default).right })
          ((st.idxToPeak.set (st.peaks.getD ir default).right (some il)).set idx (some il))
      else
        PState.mk
          ((st.peaks.set il { st.peaks.getD il default with died := some idx }).set ir
            { st.peaks.getD ir default with left := (st.peaks.getD il default).left })
          ((st.idxToPeak.set (st.peaks.getD il default).left (some ir)).set idx
            (some ir))) := by
    rw [processIdx]
    rw [if_pos h0, if_pos h1, hl, hr]
  refine ⟨?_, ?_, ?_⟩
  · intro hgt
    rw [hproc, if_pos hgt]
    dsimp only
    rw [getD_set_ne _ _ _ hne, getD_set_eq _ _ _ _ hir,
      getD_set_eq _ _ _ _ (by rw [List.length_set]; exact hil)]
    exact ⟨rfl, rfl, rfl, rfl, rfl⟩
  · intro heq _
    rw [hproc, if_neg (by rw [heq]; exact lt_irrefl _)]
    dsimp only
    rw [getD_set_ne _ _ _ (Ne.symm hne), getD_set_eq _ _ _ _ hil,
      getD_set_eq _ _ _ _ (by rw [List.length_set]; exact hir)]
    exact ⟨rfl, rfl, rfl, rfl, rfl⟩
  · intro hlt
    rw [hproc, if_neg (lt_asymm hlt)]
    dsimp only
    rw [getD_set_ne _ _ _ (Ne.symm hne), getD_set_eq _ _ _ _ hil,
      getD_set_eq _ _ _ _ (by rw [List.length_set]; exact hir)]
    exact ⟨rfl, rfl, rfl, rfl, rfl⟩

/-- Witness for C4, exercising both merge directions: on `[2, 0, 2]`
the birth values tie, so the right-hand peak (larger `born`) survives
and the left-hand peak dies at the saddle index 1; on `[1, 0, 2]` the
right peak's birth value is strictly greater, so it absorbs the left
peak, which dies at the saddle index 1. -/
theorem C4_witness :
    (((processIdx ([2, 0, 2] : List ℤ)
        (PState.mk [Peak.mk 0 none 0 0, Peak.mk 2 none 2 2] [some 0, none, some 1])
        1).peaks.getD 0 default).died = some 1 ∧
     ((processIdx ([2, 0, 2] : List ℤ)
        (PState.mk [Peak.mk 0 none 0 0, Peak.mk 2 none 2 2] [some 0, none, some 1])
        1).peaks.getD 1 default).died = none ∧
     ((processIdx ([2, 0, 2] : List ℤ)
        (PState.mk [Peak.mk 0 none 0 0, Peak.mk 2 none 2 2] [some 0, none, some 1])
        1).peaks.getD 1 default).born = 2 ∧
     ((processIdx ([2, 0, 2] : List ℤ)
        (PState.mk [Peak.mk 0 none 0 0, Peak.mk 2 none 2 2] [some 0, none, some 1])
        1).peaks.getD 1 default).left = 0 ∧
     ((processIdx ([2, 0, 2] : List ℤ)
        (PState.mk [Peak.mk 0 none 0 0, Peak.mk 2 none 2 2] [some 0, none, some 1])
        1).peaks.getD 1 default).right = 2) ∧
    (((processIdx ([1, 0, 2] : List ℤ)
        (PState.mk [Peak.mk 0 none 0 0, Peak.mk 2 none 2 2] [some 0, none, some 1])
        1).peaks.getD 0 default).died = some 1 ∧
     ((processIdx ([1, 0, 2] : List ℤ)
        (PState.mk [Peak.mk 0 none 0 0, Peak.mk 2 none 2 2] [some 0, none, some 1])
        1).peaks.getD 1 default).died = none ∧
     ((processIdx ([1, 0, 2] : List ℤ)
        (PState.mk [Peak.mk 0 none 0 0, Peak.mk 2 none 2 2] [some 0, none, some 1])
        1).peaks.getD 1 default).born = 2 ∧
     ((processIdx ([1, 0, 2] : List ℤ)
        (PState.mk [Peak.mk 0 none 0 0, Peak.mk 2 none 2 2] [some 0, none, some 1])
        1).peaks.getD 1 default).left = 0 ∧
     ((processIdx ([1, 0, 2] : List ℤ)
        (PState.mk [Peak.mk 0 none 0 0, Peak.mk 2 none 2 2] [some 0, none, some 1])
        1).peaks.getD 1 default).right = 2) :=
  ⟨(C4_merge ([2, 0, 2] : List ℤ)
      (PState.mk [Peak.mk 0 none 0 0, Peak.mk 2 none 2 2] [some 0, none, some 1])
      1 0 1 (by decide) (by decide) rfl rfl (by decide) (by decide) (by decide)).2.1
    (by decide) (by decide),
   (C4_merge ([1, 0, 2] : List ℤ)
      (PState.mk [Peak.mk 0 none 0 0, Peak.mk 2 none 2 2] [some 0, none, some 1])
      1 0 1 (by decide) (by decide) rfl rfl (by decide) (by decide) (by decide)).2.2
    (by decide)⟩

end Godsp

namespace Godsp

/-! ### The descending-value processing order -/

section SweepOrder

variable {F : Type} [LinearOrder F] [Inhabited F]

theorem idxLe_trans (seq : List F) (a b c : ℕ)
    (hab : idxLe seq a b = true) (hbc : idxLe seq b c = true) : idxLe seq a c = true := by
  simp only [idxLe, decide_eq_true_eq] at hab hbc ⊢
  rcases hab with h | ⟨h1, h2⟩ <;> rcases hbc with h' | ⟨h1', h2'⟩
  · exact Or.inl (lt_trans h' h)
  · exact Or.inl (h1' ▸ h)
  · exact Or.inl (by rw [h1]; exact h')
  · exact Or.inr ⟨h1.trans h1', le_trans h2 h2'⟩

theorem idxLe_total (seq : List F) (a b : ℕ) :
    idxLe seq a b = true ∨ idxLe seq b a = true := by
  simp only [idxLe, decide_eq_true_eq]
  rcases lt_trichotomy (seq.getD a default) (seq.getD b default) with h | h | h
  · exact Or.inr (Or.inl h)
  · rcases le_total a b with hab | hab
    · exact Or.inl (Or.inr ⟨h, hab⟩)
    · exact Or.inr (Or.inr ⟨h.symm, hab⟩)
  · exact Or.inl (Or.inl h)

theorem idxLe_false_of_lt (seq : List F) (a b : ℕ)
    (h : seq.getD a default < seq.getD b default) : idxLe seq a b = false := by
  apply decide_eq_false
  rintro (h2 | ⟨h2, _⟩)
  · exact absurd (lt_trans h h2) (lt_irrefl _)
  · exact absurd h2 (ne_of_lt h)

/-- The order processed by `GetPeaks`. -/
def sortedIndices (seq : List F) : List ℕ :=
  sortLe (idxLe seq) (List.range seq.length)

theorem sortedIndices_perm (seq : List F) :
    (sortedIndices seq).Perm (List.range seq.length) :=
  perm_sortLe (idxLe seq) (List.range seq.length)

theorem sortedIndices_mem (seq : List F) (j : ℕ) :
    j ∈ sortedIndices seq ↔ j < seq.length := by
  rw [(sortedIndices_perm seq).mem_iff, List.mem_range]

theorem sortedIndices_nodup (seq : List F) : (sortedIndices seq).Nodup :=
  (sortedIndices_perm seq).nodup_iff.mpr (List.nodup_range seq.length)

theorem sortedIndices_pairwise (seq : List F) :
    (sortedIndices seq).Pairwise (fun a b => idxLe seq a b = true) :=
  pairwise_sortLe (idxLe seq) (idxLe_trans seq) (idxLe_total seq) (List.range seq.length)

/-- When `m` is the strict value-maximum index, it is processed first. -/
theorem sortedIndices_head (seq : List F) (m : ℕ) (hm : m < seq.length)
    (hmax : ∀ j, j < seq.length → j ≠ m →
      seq.getD j default < seq.getD m default) :
    ∃ rest, sortedIndices seq = m :: rest := by
  cases horder : sortedIndices seq with
  | nil =>
    have := (sortedIndices_mem seq m).mpr hm
    rw [horder] at this
    exact absurd this (by simp)
  | cons h rest =>
    by_cases hhm : h = m
    · exact ⟨rest, by rw [hhm]⟩
    · have hmem : m ∈ h :: rest := by rw [← horder]; exact (sortedIndices_mem seq m).mpr hm
      have hmem' : m ∈ rest := by
        rcases List.mem_cons.mp hmem with heq | hmem'
        · exact absurd heq.symm hhm
        · exact hmem'
      have hpw := sortedIndices_pairwise seq
      rw [horder] at hpw
      rcases hpw with _ | ⟨hhead, _⟩
      have hh : h < seq.length := by
        have : h ∈ sortedIndices seq := by rw [horder]; exact List.mem_cons_self h rest
        exact (sortedIndices_mem seq h).mp this
      have ht := hhead m hmem'
      rw [idxLe_false_of_lt seq h m (hmax h hh hhm)] at ht
      exact Bool.noConfusion ht

end SweepOrder

end Godsp

namespace Godsp

section C8Proof

variable {F : Type} [LinearOrder F] [Inhabited F]

/-- Fold invariant for a single-hump sequence: the state stays a single
never-died peak born at the maximum `m`, owning exactly the already
processed interval `[l, r]`, and the remaining indices extend that
interval one endpoint at a time. -/
theorem singleHump_fold (seq : List F) (m : ℕ)
    (hup : ∀ i j, i < j → j ≤ m → seq.getD i default < seq.getD j default)
    (hdown : ∀ i j, m ≤ i → i < j → j < seq.length →
      seq.getD j default < seq.getD i default) :
    ∀ (rest : List ℕ) (l r : ℕ) (st : PState),
      l ≤ m → m ≤ r → r < seq.length →
      st.peaks = [Peak.mk m none l r] →
      st.idxToPeak.length = seq.length →
      (∀ j, st.idxToPeak.getD j none = if l ≤ j ∧ j ≤ r then some 0 else none) →
      (∀ j, j ∈ rest ↔ (j < seq.length ∧ ¬(l ≤ j ∧ j ≤ r))) →
      rest.Pairwise (fun a b => idxLe seq a b = true) →
      rest.Nodup →
      ∃ l' r', (rest.foldl (processIdx seq) st).peaks = [Peak.mk m none l' r'] := by
  intro rest
  induction rest with
  | nil =>
    intro l r st _ _ _ hpeaks _ _ _ _ _
    exact ⟨l, r, by rw [List.foldl_nil, hpeaks]⟩
  | cons idx rest' ih =>
    intro l r st hlm hmr hrn hpeaks hlen hmap hmem hpw hnd
    obtain ⟨hidxn, hidxout⟩ := (hmem idx).mp (List.mem_cons_self idx rest')
    rcases hpw with _ | ⟨hhead, hpw'⟩
    have hcases : (1 ≤ l ∧ idx = l - 1) ∨ idx = r + 1 := by
      by_contra hcon
      push_neg at hcon
      rcases (by omega : idx < l ∨ r < idx) with hlt | hgt
      · have hl2 : idx + 2 ≤ l := by omega
        have hmem' : l - 1 ∈ idx :: rest' :=
          (hmem (l - 1)).mpr ⟨by omega, by omega⟩
        have hmem'' : l - 1 ∈ rest' := by
          rcases List.mem_cons.mp hmem' with heq | h
          · omega
          · exact h
        have hval : seq.getD idx default < seq.getD (l - 1) default :=
          hup idx (l - 1) (by omega) (by omega)
        have ht := hhead (l - 1) hmem''
        rw [idxLe_false_of_lt seq idx (l - 1) hval] at ht
        exact Bool.noConfusion ht
      · have hr2 : r + 2 ≤ idx := by omega
        have hmem' : r + 1 ∈ idx :: rest' :=
          (hmem (r + 1)).mpr ⟨by omega, by omega⟩
        have hmem'' : r + 1 ∈ rest' := by
          rcases List.mem_cons.mp hmem' with heq | h
          · omega
          · exact h
        have hval : seq.getD idx default < seq.getD (r + 1) default :=
          hdown (r + 1) idx (by omega) (by omega) (by omega)
        have ht := hhead (r + 1) hmem''
        rw [idxLe_false_of_lt seq idx (r + 1) hval] at ht
        exact Bool.noConfusion ht
    rw [List.foldl_cons]
    rcases hcases with ⟨hl1, rfl⟩ | rfl
    · -- idx = l - 1: extend the interval to the left (right-absorb branch)
      have hst' : processIdx seq st (l - 1) =
          PState.mk
            (st.peaks.set 0 { st.peaks.getD 0 default with
              left := (st.peaks.getD 0 default).left - 1 })
            (st.idxToPeak.set (l - 1) (some 0)) := by
        rw [processIdx]
        have hlft : (if 0 < l - 1 then st.idxToPeak.getD (l - 1 - 1) none else none)
            = none := by
          by_cases h : 0 < l - 1
          · rw [if_pos h, hmap (l - 1 - 1), if_neg (by omega)]
          · rw [if_neg h]
        have hrgt : (if l - 1 < seq.length - 1 then st.idxToPeak.getD (l - 1 + 1) none
            else none) = some 0 := by
          rw [if_pos (by omega), hmap (l - 1 + 1), if_pos (by omega)]
        rw [hlft, hrgt]
      apply ih (l - 1) r (processIdx seq st (l - 1)) (by omega) hmr hrn
      · rw [hst', hpeaks]
        rfl
      · rw [hst']
        dsimp only
        rw [List.length_set]
        exact hlen
      · intro j
        rw [hst']
        dsimp only
        rw [getD_set]
        by_cases hj : l - 1 = j
        · rw [if_pos ⟨hj, by omega⟩, if_pos (by omega)]
        · rw [if_neg (fun hc => hj hc.1), hmap j]
          by_cases hj2 : l ≤ j ∧ j ≤ r
          · rw [if_pos hj2, if_pos (by omega)]
          · rw [if_neg hj2, if_neg (by omega)]
      · intro j
        constructor
        · intro hj
          have h1 := (hmem j).mp (List.mem_cons_of_mem _ hj)
          have h2 : j ≠ l - 1 := by
            intro heq
            rw [heq] at hj
            exact (List.nodup_cons.mp hnd).1 hj
          exact ⟨h1.1, by omega⟩
        · intro ⟨h1, h2⟩
          have h3 : j ∈ (l - 1) :: rest' := (hmem j).mpr ⟨h1, by omega⟩
          rcases List.mem_cons.mp h3 with heq | h
          · omega
          · exact h
      · exact hpw'
      · exact (List.nodup_cons.mp hnd).2
    · -- idx = r + 1: extend the interval to the right (left-absorb branch)
      have hst' : processIdx seq st (r + 1) =
          PState.mk
            (st.peaks.set 0 { st.peaks.getD 0 default with
              right := (st.peaks.getD 0 default).right + 1 })
            (st.idxToPeak.set (r + 1) (some 0)) := by
        rw [processIdx]
        have hlft : (if 0 < r + 1 then st.idxToPeak.getD (r + 1 - 1) none else none)
            = some 0 := by
          rw [if_pos (by omega), hmap (r + 1 - 1), if_pos (by omega)]
        have hrgt : (if r + 1 < seq.length - 1 then st.idxToPeak.getD (r + 1 + 1) none
            else none) = none := by
          by_cases h : r + 1 < seq.length - 1
          · rw [if_pos h, hmap (r + 1 + 1), if_neg (by omega)]
          · rw [if_neg h]
        rw [hlft, hrgt]
      apply ih l (r + 1) (processIdx seq st (r + 1)) hlm (by omega) (by omega)
      · rw [hst', hpeaks]
        rfl
      · rw [hst']
        dsimp only
        rw [List.length_set]
        exact hlen
      · intro j
        rw [hst']
        dsimp only
        rw [getD_set]
        by_cases hj : r + 1 = j
        · rw [if_pos ⟨hj, by omega⟩, if_pos (by omega)]
        · rw [if_neg (fun hc => hj hc.1), hmap j]
          by_cases hj2 : l ≤ j ∧ j ≤ r
          · rw [if_pos hj2, if_pos (by omega)]
          · rw [if_neg hj2, if_neg (by omega)]
      · intro j
        constructor
        · intro hj
          have h1 := (hmem j).mp (List.mem_cons_of_mem _ hj)
          have h2 : j ≠ r + 1 := by
            intro heq
            rw [heq] at hj
            exact (List.nodup_cons.mp hnd).1 hj
          exact ⟨h1.1, by omega⟩
        · intro ⟨h1, h2⟩
          have h3 : j ∈ (r + 1) :: rest' := (hmem j).mpr ⟨h1, by omega⟩
          rcases List.mem_cons.mp h3 with heq | h
          · omega
          · exact h
      · exact hpw'
      · exact (List.nodup_cons.mp hnd).2

end C8Proof

end Godsp

namespace Godsp

/-- Claim C8: for every non-empty sequence that is strictly increasing
up to a single global maximum index `m` and strictly decreasing after
it, `GetPeaks` returns exactly one peak, born at `m`, that never died
(sentinel `none`), hence with infinite persistence. -/
theorem C8_single_hump {F : Type} [LinearOrder F] [Inhabited F] [Sub F]
    (seq : List F) (m : ℕ) (hm : m < seq.length)
    (hup : ∀ i j, i < j → j ≤ m → seq.getD i default < seq.getD j default)
    (hdown : ∀ i j, m ≤ i → i < j → j < seq.length →
      seq.getD j default < seq.getD i default) :
    (GetPeaks seq).peaks.length = 1 ∧
    ((GetPeaks seq).peaks.getD 0 default).born = m ∧
    ((GetPeaks seq).peaks.getD 0 default).died = none ∧
    ((GetPeaks seq).peaks.getD 0 default).getPersistence seq = EF.pinf := by
  have hmax : ∀ j, j < seq.length → j ≠ m →
      seq.getD j default < seq.getD m default := by
    intro j hj hne
    rcases lt_or_gt_of_ne hne with h | h
    · exact hup j m h le_rfl
    · exact hdown m j le_rfl h hj
  obtain ⟨rest, horder⟩ := sortedIndices_head seq m hm hmax
  have hst1 : processIdx seq (PState.mk [] (List.replicate seq.length none)) m =
      PState.mk [newPeak m] ((List.replicate seq.length none).set m (some 0)) := by
    have hlft : (if 0 < m then
        (List.replicate seq.length (none : Option ℕ)).getD (m - 1) none else none)
        = none := by
      by_cases h : 0 < m
      · rw [if_pos h, getD_replicate, ite_self]
      · rw [if_neg h]
    have hrgt : (if m < seq.length - 1 then
        (List.replicate seq.length (none : Option ℕ)).getD (m + 1) none else none)
        = none := by
      by_cases h : m < seq.length - 1
      · rw [if_pos h, getD_replicate, ite_self]
      · rw [if_neg h]
    rw [processIdx]
    dsimp only
    rw [hlft, hrgt]
    rfl
  have hfold := singleHump_fold seq m hup hdown rest m m
    (PState.mk [newPeak m] ((List.replicate seq.length none).set m (some 0)))
    le_rfl le_rfl hm rfl
    (by dsimp only; rw [List.length_set, List.length_replicate])
    ?_ ?_ ?_ ?_
  · obtain ⟨l', r', hfinal⟩ := hfold
    have hgp : (GetPeaks seq).peaks =
        sortLe bornLe ((sortedIndices seq).foldl (processIdx seq)
          (PState.mk [] (List.replicate seq.length none))).peaks := rfl
    rw [hgp, horder, List.foldl_cons, hst1, hfinal]
    exact ⟨rfl, rfl, rfl, rfl⟩
  · intro j
    dsimp only
    rw [getD_set]
    by_cases hj : m = j
    · rw [if_pos ⟨hj, by rw [List.length_replicate]; exact hm⟩, if_pos (by omega)]
    · rw [if_neg (fun hc => hj hc.1), getD_replicate, ite_self, if_neg (by omega)]
  · intro j
    constructor
    · intro hj
      have h1 : j ∈ sortedIndices seq := by
        rw [horder]
        exact List.mem_cons_of_mem m hj
      have h2 : j ≠ m := by
        intro heq
        rw [heq] at hj
        have hnd := sortedIndices_nodup seq
        rw [horder] at hnd
        exact (List.nodup_cons.mp hnd).1 hj
      exact ⟨(sortedIndices_mem seq j).mp h1, by omega⟩
    · intro ⟨h1, h2⟩
      have h3 : j ∈ sortedIndices seq := (sortedIndices_mem seq j).mpr h1
      rw [horder] at h3
      rcases List.mem_cons.mp h3 with heq | h
      · omega
      · exact h
  · have hpw := sortedIndices_pairwise seq
    rw [horder] at hpw
    exact hpw.of_cons
  · have hnd := sortedIndices_nodup seq
    rw [horder] at hnd
    exact (List.nodup_cons.mp hnd).2

/-- Witness for C8 at the concrete single-hump sequence `[0, 5, 3, 1]`. -/
theorem C8_witness :
    (GetPeaks ([0, 5, 3, 1] : List ℤ)).peaks.length = 1 ∧
    ((GetPeaks ([0, 5, 3, 1] : List ℤ)).peaks.getD 0 default).born = 1 ∧
    ((GetPeaks ([0, 5, 3, 1] : List ℤ)).peaks.getD 0 default).died = none ∧
    ((GetPeaks ([0, 5, 3, 1] : List ℤ)).peaks.getD 0 default).getPersistence
      ([0, 5, 3, 1] : List ℤ) = EF.pinf :=
  C8_single_hump ([0, 5, 3, 1] : List ℤ) 1 (by decide)
    (by
      intro i j h1 h2
      have hij : i = 0 ∧ j = 1 := by omega
      obtain ⟨rfl, rfl⟩ := hij
      decide)
    (by
      intro i j h1 h2 h3
      have hlen : ([0, 5, 3, 1] : List ℤ).length = 4 := rfl
      rw [hlen] at h3
      have hij : (i = 1 ∧ j = 2) ∨ (i = 1 ∧ j = 3) ∨ (i = 2 ∧ j = 3) := by omega
      rcases hij with ⟨rfl, rfl⟩ | ⟨rfl, rfl⟩ | ⟨rfl, rfl⟩ <;> decide)

end Godsp

namespace Godsp

/-! ### The component invariant of the persistence sweep (for C10) -/

/-- `[l, r]` is a maximal interval (connected component) of the set `A`
of already-assigned indices. -/
def IsComp (A : Finset ℕ) (l r : ℕ) : Prop :=
  l ≤ r ∧ (∀ j, l ≤ j → j ≤ r → j ∈ A) ∧ (l = 0 ∨ l - 1 ∉ A) ∧ r + 1 ∉ A

theorem IsComp.eq_of_mem {A : Finset ℕ} {l r l' r' j : ℕ}
    (h : IsComp A l r) (h' : IsComp A l' r')
    (hj1 : l ≤ j) (hj2 : j ≤ r) (hj1' : l' ≤ j) (hj2' : j ≤ r') : l = l' ∧ r = r' := by
  obtain ⟨hlr, hmem, hl, hr⟩ := h
  obtain ⟨hlr', hmem', hl', hr'⟩ := h'
  constructor
  · by_contra hne
    rcases Nat.lt_or_ge l l' with hlt | hge
    · rcases hl' with h0 | hnotin
      · omega
      · exact hnotin (hmem (l' - 1) (by omega) (by omega))
    · have hlt : l' < l := by omega
      rcases hl with h0 | hnotin
      · omega
      · exact hnotin (hmem' (l - 1) (by omega) (by omega))
  · by_contra hne
    rcases Nat.lt_or_ge r r' with hlt | hge
    · exact hr (hmem' (r + 1) (by omega) (by omega))
    · have hlt : r' < r := by omega
      exact hr' (hmem (r' + 1) (by omega) (by omega))

/-- The reachable-state invariant of the sweep: `A` is the set of
assigned indices; every maximal interval of `A` is owned by exactly one
never-died peak whose span is that interval and whose two endpoints map
back to it in `idxToPeak`; dead peaks carry a valid saddle index. -/
structure SweepInv (n : ℕ) (A : Finset ℕ) (st : PState) : Prop where
  lenEq : st.idxToPeak.length = n
  assign : ∀ j, j < n → ((st.idxToPeak.getD j none).isSome ↔ j ∈ A)
  bound : ∀ j ∈ A, j < n
  mapValid : ∀ j, j < n → ∀ pi, st.idxToPeak.getD j none = some pi → pi < st.peaks.length
  alive : ∀ pi, pi < st.peaks.length → (st.peaks.getD pi default).died = none →
    IsComp A (st.peaks.getD pi default).left (st.peaks.getD pi default).right ∧
    st.idxToPeak.getD (st.peaks.getD pi default).left none = some pi ∧
    st.idxToPeak.getD (st.peaks.getD pi default).right none = some pi
  comp : ∀ l r, IsComp A l r → ∃ pi, pi < st.peaks.length ∧
    (st.peaks.getD pi default).died = none ∧
    (st.peaks.getD pi default).left = l ∧ (st.peaks.getD pi default).right = r
  cover : ∀ j ∈ A, ∃ l r, IsComp A l r ∧ l ≤ j ∧ j ≤ r
  deadValid : ∀ pi, pi < st.peaks.length → ∀ d,
    (st.peaks.getD pi default).died = some d → d < n

/-- When `idx` is unassigned and its left neighbour is assigned, the
left neighbour is the right endpoint of its component, and
`idxToPeak[idx-1]` reads that component's owner. -/
theorem SweepInv.read_left {n : ℕ} {A : Finset ℕ} {st : PState} (inv : SweepInv n A st)
    (idx : ℕ) (hnotin : idx ∉ A) (h1 : 1 ≤ idx) (hmem : idx - 1 ∈ A) :
    ∃ il l1, st.idxToPeak.getD (idx - 1) none = some il ∧ il < st.peaks.length ∧
      (st.peaks.getD il default).died = none ∧
      (st.peaks.getD il default).left = l1 ∧
      (st.peaks.getD il default).right = idx - 1 ∧
      IsComp A l1 (idx - 1) := by
  obtain ⟨l, r, hcomp, hjl, hjr⟩ := inv.cover (idx - 1) hmem
  have hre : r = idx - 1 := by
    by_contra hne
    exact hnotin (hcomp.2.1 idx (by omega) (by omega))
  obtain ⟨pi, hpk, hdied, hleft, hright⟩ := inv.comp l r hcomp
  obtain ⟨_, _, hmapr⟩ := inv.alive pi hpk hdied
  rw [hright, hre] at hmapr
  exact ⟨pi, l, hmapr, hpk, hdied, hleft, by rw [hright, hre], hre ▸ hcomp⟩

/-- Mirror image of `SweepInv.read_left` for the right neighbour. -/
theorem SweepInv.read_right {n : ℕ} {A : Finset ℕ} {st : PState} (inv : SweepInv n A st)
    (idx : ℕ) (hnotin : idx ∉ A) (hmem : idx + 1 ∈ A) :
    ∃ ir r2, st.idxToPeak.getD (idx + 1) none = some ir ∧ ir < st.peaks.length ∧
      (st.peaks.getD ir default).died = none ∧
      (st.peaks.getD ir default).left = idx + 1 ∧
      (st.peaks.getD ir default).right = r2 ∧
      IsComp A (idx + 1) r2 := by
  obtain ⟨l, r, hcomp, hjl, hjr⟩ := inv.cover (idx + 1) hmem
  have hle : l = idx + 1 := by
    by_contra hne
    exact hnotin (hcomp.2.1 idx (by omega) (by omega))
  obtain ⟨pi, hpk, hdied, hleft, hright⟩ := inv.comp l r hcomp
  obtain ⟨_, hmapl, _⟩ := inv.alive pi hpk hdied
  rw [hleft, hle] at hmapl
  exact ⟨pi, r, hmapl, hpk, hdied, by rw [hleft, hle], hright, hle ▸ hcomp⟩

end Godsp

namespace Godsp

theorem SweepInv.getD_none {n : ℕ} {A : Finset ℕ} {st : PState} (inv : SweepInv n A st)
    (j : ℕ) (hj : j < n) (hja : j ∉ A) : st.idxToPeak.getD j none = none := by
  cases ho : st.idxToPeak.getD j none with
  | none => rfl
  | some v =>
    have hs := (inv.assign j hj).mp (by rw [ho]; rfl)
    exact absurd hs hja

theorem IsComp.insert_of_ne {A : Finset ℕ} {idx l r : ℕ} (hcomp : IsComp A l r)
    (hl : l - 1 ≠ idx ∨ l = 0) (hr : r + 1 ≠ idx) : IsComp (insert idx A) l r := by
  obtain ⟨hlr, hsub, hbl, hbr⟩ := hcomp
  refine ⟨hlr, fun j h1 h2 => Finset.mem_insert_of_mem (hsub j h1 h2), ?_, ?_⟩
  · rcases hbl with h0 | hni
    · exact Or.inl h0
    · rcases hl with hne | h0
      · exact Or.inr (fun hm => (Finset.mem_insert.mp hm).elim hne hni)
      · exact Or.inl h0
  · intro hm
    rcases Finset.mem_insert.mp hm with he | hm2
    · exact hr he
    · exact hbr hm2

/-- A component of `insert idx A` that avoids `idx` is a component of `A`. -/
theorem IsComp.of_insert_not_mem {A : Finset ℕ} {idx l r : ℕ}
    (hcomp : IsComp (insert idx A) l r) (hout : ¬(l ≤ idx ∧ idx ≤ r)) : IsComp A l r := by
  obtain ⟨hlr, hsub, hbl, hbr⟩ := hcomp
  refine ⟨hlr, ?_, ?_, ?_⟩
  · intro j h1 h2
    rcases Finset.mem_insert.mp (hsub j h1 h2) with rfl | h
    · exact absurd ⟨h1, h2⟩ hout
    · exact h
  · rcases hbl with h0 | hni
    · exact Or.inl h0
    · exact Or.inr (fun hm => hni (Finset.mem_insert_of_mem hm))
  · exact fun hm => hbr (Finset.mem_insert_of_mem hm)

/-- Step case 1 (birth): both neighbours unassigned. -/
theorem sweepInv_step_birth {F : Type} [LinearOrder F] [Inhabited F] (seq : List F)
    {n : ℕ} {A : Finset ℕ} {st : PState} (hn : n = seq.length) (inv : SweepInv n A st)
    (idx : ℕ) (hidx : idx < n) (hnotin : idx ∉ A)
    (hL : ¬(1 ≤ idx ∧ idx - 1 ∈ A)) (hR : idx + 1 ∉ A) :
    SweepInv n (insert idx A) (processIdx seq st idx) := by
  have hst' : processIdx seq st idx = PState.mk (st.peaks ++ [newPeak idx])
      (st.idxToPeak.set idx (some st.peaks.length)) := by
    rw [processIdx]
    have h1 : (if 0 < idx then st.idxToPeak.getD (idx - 1) none else none) = none := by
      by_cases hg : 0 < idx
      · rw [if_pos hg]
        exact inv.getD_none (idx - 1) (by omega) (fun hmem => hL ⟨by omega, hmem⟩)
      · rw [if_neg hg]
    have h2 : (if idx < seq.length - 1 then st.idxToPeak.getD (idx + 1) none else none)
        = none := by
      by_cases hg : idx < seq.length - 1
      · rw [if_pos hg]
        exact inv.getD_none (idx + 1) (by omega) hR
      · rw [if_neg hg]
    rw [h1, h2]
  rw [hst']
  have hlen := inv.lenEq
  -- side conditions making old components survive
  have hside : ∀ l r, IsComp A l r → (l - 1 ≠ idx ∨ l = 0) ∧ r + 1 ≠ idx := by
    intro l r hcomp
    constructor
    · rcases Nat.eq_zero_or_pos l with h0 | h1
      · exact Or.inr h0
      · left
        intro he
        exact hR (by rw [show idx + 1 = l by omega]; exact hcomp.2.1 l le_rfl hcomp.1)
    · intro he
      exact hL ⟨by omega, by rw [show idx - 1 = r by omega]; exact hcomp.2.1 r hcomp.1 le_rfl⟩
  have hnewcomp : IsComp (insert idx A) idx idx := by
    refine ⟨le_rfl, ?_, ?_, ?_⟩
    · intro j h1 h2
      rw [show j = idx by omega]
      exact Finset.mem_insert_self idx A
    · rcases Nat.eq_zero_or_pos idx with h0 | h1
      · exact Or.inl h0
      · right
        intro hm
        rcases Finset.mem_insert.mp hm with he | hm2
        · omega
        · exact hL ⟨h1, hm2⟩
    · intro hm
      rcases Finset.mem_insert.mp hm with he | hm2
      · omega
      · exact hR hm2
  constructor
  -- lenEq
  · dsimp only
    rw [List.length_set]
    exact hlen
  -- assign
  · intro j hj
    dsimp only
    rw [getD_set]
    by_cases hji : idx = j
    · rw [if_pos ⟨hji, by rw [hlen]; exact hidx⟩]
      subst hji
      simp [Finset.mem_insert_self]
    · rw [if_neg (fun hc => hji hc.1)]
      rw [inv.assign j hj]
      constructor
      · exact fun h => Finset.mem_insert_of_mem h
      · intro h
        rcases Finset.mem_insert.mp h with rfl | h
        · exact absurd rfl hji
        · exact h
  -- bound
  · intro j hj
    rcases Finset.mem_insert.mp hj with rfl | hj
    · exact hidx
    · exact inv.bound j hj
  -- mapValid
  · intro j hj pi hpi
    dsimp only at hpi ⊢
    rw [getD_set] at hpi
    rw [List.length_append]
    by_cases hc : idx = j ∧ idx < st.idxToPeak.length
    · rw [if_pos hc] at hpi
      have := Option.some.inj hpi
      simp only [List.length_cons, List.length_nil]
      omega
    · rw [if_neg hc] at hpi
      have := inv.mapValid j hj pi hpi
      simp only [List.length_cons, List.length_nil]
      omega
  -- alive
  · intro pi hpi hdied
    dsimp only at hpi hdied ⊢
    rw [List.length_append, List.length_cons, List.length_nil] at hpi
    by_cases hpi2 : pi < st.peaks.length
    · have hgd : (st.peaks ++ [newPeak idx]).getD pi default = st.peaks.getD pi default :=
        getD_append_left _ _ _ _ hpi2
      rw [hgd] at hdied ⊢
      obtain ⟨hcomp, hml, hmr⟩ := inv.alive pi hpi2 hdied
      obtain ⟨hs1, hs2⟩ := hside _ _ hcomp
      refine ⟨hcomp.insert_of_ne hs1 hs2, ?_, ?_⟩
      · rw [getD_set_ne]
        · exact hml
        · intro he
          exact hnotin (he ▸ hcomp.2.1 _ le_rfl hcomp.1)
      · rw [getD_set_ne]
        · exact hmr
        · intro he
          exact hnotin (he ▸ hcomp.2.1 _ hcomp.1 le_rfl)
    · have hpieq : pi = st.peaks.length := by omega
      have hgd : (st.peaks ++ [newPeak idx]).getD pi default = newPeak idx := by
        rw [getD_append_right _ _ _ _ (by omega), hpieq, Nat.sub_self]
        rfl
      rw [hgd] at hdied ⊢
      refine ⟨hnewcomp, ?_, ?_⟩
      · rw [show (newPeak idx).left = idx from rfl,
          getD_set_eq _ _ _ _ (by rw [hlen]; exact hidx), hpieq]
      · rw [show (newPeak idx).right = idx from rfl,
          getD_set_eq _ _ _ _ (by rw [hlen]; exact hidx), hpieq]
  -- comp
  · intro l r hcomp
    dsimp only
    by_cases hin : l ≤ idx ∧ idx ≤ r
    · have hleq : l = idx ∧ r = idx := by
        constructor
        · by_contra hne
          have hl1 : l ≤ idx - 1 := by omega
          have : idx - 1 ∈ insert idx A := hcomp.2.1 (idx - 1) (by omega) (by omega)
          rcases Finset.mem_insert.mp this with he | hm
          · omega
          · exact hL ⟨by omega, hm⟩
        · by_contra hne
          have : idx + 1 ∈ insert idx A := hcomp.2.1 (idx + 1) (by omega) (by omega)
          rcases Finset.mem_insert.mp this with he | hm
          · omega
          · exact hR hm
      refine ⟨st.peaks.length, ?_, ?_, ?_, ?_⟩
      · rw [List.length_append, List.length_cons, List.length_nil]
        omega
      · rw [getD_append_right _ _ _ _ le_rfl, Nat.sub_self]
        rfl
      · rw [getD_append_right _ _ _ _ le_rfl, Nat.sub_self]
        exact hleq.1.symm
      · rw [getD_append_right _ _ _ _ le_rfl, Nat.sub_self]
        exact hleq.2.symm
    · obtain ⟨pi, hpk, hdied, hleft, hright⟩ := inv.comp l r (hcomp.of_insert_not_mem hin)
      have hgd : (st.peaks ++ [newPeak idx]).getD pi default = st.peaks.getD pi default :=
        getD_append_left _ _ _ _ hpk
      refine ⟨pi, ?_, ?_, ?_, ?_⟩
      · rw [List.length_append, List.length_cons, List.length_nil]
        omega
      · rw [hgd]
        exact hdied
      · rw [hgd]
        exact hleft
      · rw [hgd]
        exact hright
  -- cover
  · intro j hj
    rcases Finset.mem_insert.mp hj with rfl | hj
    · exact ⟨j, j, hnewcomp, le_rfl, le_rfl⟩
    · obtain ⟨l, r, hcomp, h1, h2⟩ := inv.cover j hj
      obtain ⟨hs1, hs2⟩ := hside _ _ hcomp
      exact ⟨l, r, hcomp.insert_of_ne hs1 hs2, h1, h2⟩
  -- deadValid
  · intro pi hpi d hd
    dsimp only at hpi hd
    rw [List.length_append, List.length_cons, List.length_nil] at hpi
    by_cases hpi2 : pi < st.peaks.length
    · rw [getD_append_left _ _ _ _ hpi2] at hd
      exact inv.deadValid pi hpi2 d hd
    · have hpieq : pi = st.peaks.length := by omega
      rw [getD_append_right _ _ _ _ (by omega), hpieq, Nat.sub_self] at hd
      exact absurd hd (by simp [newPeak, List.getD])

end Godsp

namespace Godsp

/-- Step case 2 (absorb left): only the left neighbour is assigned.
The owning peak's span grows one step to the right, over `idx`. -/
theorem sweepInv_step_left {F : Type} [LinearOrder F] [Inhabited F] (seq : List F)
    {n : ℕ} {A : Finset ℕ} {st : PState} (hn : n = seq.length) (inv : SweepInv n A st)
    (idx : ℕ) (hidx : idx < n) (hnotin : idx ∉ A)
    (hL : 1 ≤ idx ∧ idx - 1 ∈ A) (hR : idx + 1 ∉ A) :
    SweepInv n (insert idx A) (processIdx seq st idx) := by
  obtain ⟨il, l1, hgdl, hil, hdl, hlfl, hrfl, hcompL⟩ := inv.read_left idx hnotin hL.1 hL.2
  have hlen := inv.lenEq
  have hl1le : l1 ≤ idx - 1 := hcompL.1
  have hst' : processIdx seq st idx = PState.mk
      (st.peaks.set il { st.peaks.getD il default with
        right := (st.peaks.getD il default).right + 1 })
      (st.idxToPeak.set idx (some il)) := by
    rw [processIdx]
    have h1 : (if 0 < idx then st.idxToPeak.getD (idx - 1) none else none) = some il := by
      rw [if_pos (by omega)]
      exact hgdl
    have h2 : (if idx < seq.length - 1 then st.idxToPeak.getD (idx + 1) none else none)
        = none := by
      by_cases hg : idx < seq.length - 1
      · rw [if_pos hg]
        exact inv.getD_none (idx + 1) (by omega) hR
      · rw [if_neg hg]
    rw [h1, h2]
  rw [hst']
  -- the grown component
  have hnewcomp : IsComp (insert idx A) l1 idx := by
    refine ⟨by omega, ?_, ?_, ?_⟩
    · intro j h1 h2
      by_cases hje : j = idx
      · rw [hje]
        exact Finset.mem_insert_self idx A
      · exact Finset.mem_insert_of_mem (hcompL.2.1 j h1 (by omega))
    · rcases hcompL.2.2.1 with h0 | hni
      · exact Or.inl h0
      · right
        intro hm
        rcases Finset.mem_insert.mp hm with he | hm2
        · omega
        · exact hni hm2
    · intro hm
      rcases Finset.mem_insert.mp hm with he | hm2
      · omega
      · exact hR hm2
  -- side conditions for components not owned by il
  have hside : ∀ l r, IsComp A l r → r + 1 ≠ idx → (l - 1 ≠ idx ∨ l = 0) ∧ r + 1 ≠ idx := by
    intro l r hcomp hr1
    refine ⟨?_, hr1⟩
    rcases Nat.eq_zero_or_pos l with h0 | h1
    · exact Or.inr h0
    · left
      intro he
      exact hR (by rw [show idx + 1 = l by omega]; exact hcomp.2.1 l le_rfl hcomp.1)
  -- the map to il at the old left endpoint survives (l1 ≠ idx)
  have hmapL := (inv.alive il hil hdl).2.1
  rw [hlfl] at hmapL
  constructor
  -- lenEq
  · dsimp only
    rw [List.length_set]
    exact hlen
  -- assign
  · intro j hj
    dsimp only
    rw [getD_set]
    by_cases hji : idx = j
    · rw [if_pos ⟨hji, by rw [hlen]; exact hidx⟩]
      subst hji
      simp [Finset.mem_insert_self]
    · rw [if_neg (fun hc => hji hc.1)]
      rw [inv.assign j hj]
      constructor
      · exact fun h => Finset.mem_insert_of_mem h
      · intro h
        rcases Finset.mem_insert.mp h with rfl | h
        · exact absurd rfl hji
        · exact h
  -- bound
  · intro j hj
    rcases Finset.mem_insert.mp hj with rfl | hj
    · exact hidx
    · exact inv.bound j hj
  -- mapValid
  · intro j hj pi hpi
    dsimp only at hpi ⊢
    rw [getD_set] at hpi
    rw [List.length_set]
    by_cases hc : idx = j ∧ idx < st.idxToPeak.length
    · rw [if_pos hc] at hpi
      rw [← Option.some.inj hpi]
      exact hil
    · rw [if_neg hc] at hpi
      exact inv.mapValid j hj pi hpi
  -- alive
  · intro pi hpi hdied
    dsimp only at hpi hdied ⊢
    rw [List.length_set] at hpi
    by_cases hpie : pi = il
    · subst hpie
      rw [getD_set_eq _ _ _ _ hil] at hdied ⊢
      refine ⟨?_, ?_, ?_⟩
      · show IsComp (insert idx A) (st.peaks.getD pi default).left
          ((st.peaks.getD pi default).right + 1)
        rw [hlfl, hrfl, show idx - 1 + 1 = idx by omega]
        exact hnewcomp
      · show (st.idxToPeak.set idx (some pi)).getD (st.peaks.getD pi default).left none
          = some pi
        rw [getD_set_ne _ _ _ (by rw [hlfl]; omega), hlfl]
        exact hmapL
      · show (st.idxToPeak.set idx (some pi)).getD
          ((st.peaks.getD pi default).right + 1) none = some pi
        rw [hrfl, show idx - 1 + 1 = idx by omega,
          getD_set_eq _ _ _ _ (by rw [hlen]; exact hidx)]
    · rw [getD_set_ne _ _ _ (fun he => hpie he.symm)] at hdied ⊢
      obtain ⟨hcomp, hml, hmr⟩ := inv.alive pi hpi hdied
      have hr1 : (st.peaks.getD pi default).right + 1 ≠ idx := by
        intro he
        have heq := hcomp.eq_of_mem hcompL hcomp.1 le_rfl (by omega) (by omega)
        rw [heq.1] at hml
        rw [hmapL] at hml
        exact hpie (Option.some.inj hml).symm
      obtain ⟨hs1, hs2⟩ := hside _ _ hcomp hr1
      refine ⟨hcomp.insert_of_ne hs1 hs2, ?_, ?_⟩
      · rw [getD_set_ne]
        · exact hml
        · intro he
          exact hnotin (he ▸ hcomp.2.1 _ le_rfl hcomp.1)
      · rw [getD_set_ne]
        · exact hmr
        · intro he
          exact hnotin (he ▸ hcomp.2.1 _ hcomp.1 le_rfl)
  -- comp
  · intro l r hcomp
    dsimp only
    by_cases hin : l ≤ idx ∧ idx ≤ r
    · have heq := hcomp.eq_of_mem hnewcomp hin.1 hin.2 (by omega) le_rfl
      refine ⟨il, ?_, ?_, ?_, ?_⟩
      · rw [List.length_set]
        exact hil
      · rw [getD_set_eq _ _ _ _ hil]
        exact hdl
      · rw [getD_set_eq _ _ _ _ hil]
        show (st.peaks.getD il default).left = l
        rw [hlfl, heq.1]
      · rw [getD_set_eq _ _ _ _ hil]
        show (st.peaks.getD il default).right + 1 = r
        rw [hrfl]
        omega
    · obtain ⟨pi, hpk, hdied, hleft, hright⟩ := inv.comp l r (hcomp.of_insert_not_mem hin)
      have hpie : pi ≠ il := by
        intro he
        have hre : r = idx - 1 := by rw [← hright, he, hrfl]
        have hr1 : r + 1 = idx := by omega
        exact hcomp.2.2.2 (by rw [hr1]; exact Finset.mem_insert_self idx A)
      refine ⟨pi, ?_, ?_, ?_, ?_⟩
      · rw [List.length_set]
        exact hpk
      · rw [getD_set_ne _ _ _ (fun he => hpie he.symm)]
        exact hdied
      · rw [getD_set_ne _ _ _ (fun he => hpie he.symm)]
        exact hleft
      · rw [getD_set_ne _ _ _ (fun he => hpie he.symm)]
        exact hright
  -- cover
  · intro j hj
    rcases Finset.mem_insert.mp hj with rfl | hj
    · exact ⟨l1, j, hnewcomp, by omega, le_rfl⟩
    · obtain ⟨l, r, hcomp, h1, h2⟩ := inv.cover j hj
      by_cases hr1 : r + 1 = idx
      · have heq := hcomp.eq_of_mem hcompL hcomp.1 le_rfl (by omega) (by omega)
        exact ⟨l1, idx, hnewcomp, by omega, by omega⟩
      · obtain ⟨hs1, hs2⟩ := hside _ _ hcomp hr1
        exact ⟨l, r, hcomp.insert_of_ne hs1 hs2, h1, h2⟩
  -- deadValid
  · intro pi hpi d hd
    dsimp only at hpi hd
    rw [List.length_set] at hpi
    by_cases hpie : pi = il
    · subst hpie
      rw [getD_set_eq _ _ _ _ hil] at hd
      have : (st.peaks.getD pi default).died = some d := hd
      rw [hdl] at this
      exact absurd this (by simp)
    · rw [getD_set_ne _ _ _ (fun he => hpie he.symm)] at hd
      exact inv.deadValid pi hpi d hd

end Godsp

namespace Godsp

/-- Step case 3 (absorb right): only the right neighbour is assigned.
The owning peak's span grows one step to the left, over `idx`. -/
theorem sweepInv_step_right {F : Type} [LinearOrder F] [Inhabited F] (seq : List F)
    {n : ℕ} {A : Finset ℕ} {st : PState} (hn : n = seq.length) (inv : SweepInv n A st)
    (idx : ℕ) (hidx : idx < n) (hnotin : idx ∉ A)
    (hL : ¬(1 ≤ idx ∧ idx - 1 ∈ A)) (hR : idx + 1 ∈ A) :
    SweepInv n (insert idx A) (processIdx seq st idx) := by
  obtain ⟨ir, r2, hgdr, hir, hdr, hlfr, hrfr, hcompR⟩ := inv.read_right idx hnotin hR
  have hlen := inv.lenEq
  have hr2ge : idx + 1 ≤ r2 := hcompR.1
  have hst' : processIdx seq st idx = PState.mk
      (st.peaks.set ir { st.peaks.getD ir default with
        left := (st.peaks.getD ir default).left - 1 })
      (st.idxToPeak.set idx (some ir)) := by
    rw [processIdx]
    have h1 : (if 0 < idx then st.idxToPeak.getD (idx - 1) none else none) = none := by
      by_cases hg : 0 < idx
      · rw [if_pos hg]
        exact inv.getD_none (idx - 1) (by omega) (fun hmem => hL ⟨by omega, hmem⟩)
      · rw [if_neg hg]
    have h2 : (if idx < seq.length - 1 then st.idxToPeak.getD (idx + 1) none else none)
        = some ir := by
      have hb := inv.bound (idx + 1) hR
      rw [if_pos (by omega)]
      exact hgdr
    rw [h1, h2]
  rw [hst']
  -- the grown component
  have hnewcomp : IsComp (insert idx A) idx r2 := by
    refine ⟨by omega, ?_, ?_, ?_⟩
    · intro j h1 h2
      by_cases hje : j = idx
      · rw [hje]
        exact Finset.mem_insert_self idx A
      · exact Finset.mem_insert_of_mem (hcompR.2.1 j (by omega) h2)
    · rcases Nat.eq_zero_or_pos idx with h0 | h1
      · exact Or.inl h0
      · right
        intro hm
        rcases Finset.mem_insert.mp hm with he | hm2
        · omega
        · exact hL ⟨h1, hm2⟩
    · intro hm
      rcases Finset.mem_insert.mp hm with he | hm2
      · omega
      · exact hcompR.2.2.2 hm2
  -- right boundaries of old components never touch idx
  have hrside : ∀ l r, IsComp A l r → r + 1 ≠ idx := by
    intro l r hcomp he
    exact hL ⟨by omega, by rw [show idx - 1 = r by omega]; exact hcomp.2.1 r hcomp.1 le_rfl⟩
  -- the map to ir at the old right endpoint survives (r2 ≠ idx)
  have hmapR := (inv.alive ir hir hdr).2.2
  rw [hrfr] at hmapR
  -- the map at the old left endpoint idx+1
  have hmapRL := (inv.alive ir hir hdr).2.1
  rw [hlfr] at hmapRL
  constructor
  -- lenEq
  · dsimp only
    rw [List.length_set]
    exact hlen
  -- assign
  · intro j hj
    dsimp only
    rw [getD_set]
    by_cases hji : idx = j
    · rw [if_pos ⟨hji, by rw [hlen]; exact hidx⟩]
      subst hji
      simp [Finset.mem_insert_self]
    · rw [if_neg (fun hc => hji hc.1)]
      rw [inv.assign j hj]
      constructor
      · exact fun h => Finset.mem_insert_of_mem h
      · intro h
        rcases Finset.mem_insert.mp h with rfl | h
        · exact absurd rfl hji
        · exact h
  -- bound
  · intro j hj
    rcases Finset.mem_insert.mp hj with rfl | hj
    · exact hidx
    · exact inv.bound j hj
  -- mapValid
  · intro j hj pi hpi
    dsimp only at hpi ⊢
    rw [getD_set] at hpi
    rw [List.length_set]
    by_cases hc : idx = j ∧ idx < st.idxToPeak.length
    · rw [if_pos hc] at hpi
      rw [← Option.some.inj hpi]
      exact hir
    · rw [if_neg hc] at hpi
      exact inv.mapValid j hj pi hpi
  -- alive
  · intro pi hpi hdied
    dsimp only at hpi hdied ⊢
    rw [List.length_set] at hpi
    by_cases hpie : pi = ir
    · subst hpie
      rw [getD_set_eq _ _ _ _ hir] at hdied ⊢
      refine ⟨?_, ?_, ?_⟩
      · show IsComp (insert idx A) ((st.peaks.getD pi default).left - 1)
          (st.peaks.getD pi default).right
        rw [hlfr, hrfr, show idx + 1 - 1 = idx by omega]
        exact hnewcomp
      · show (st.idxToPeak.set idx (some pi)).getD
          ((st.peaks.getD pi default).left - 1) none = some pi
        rw [hlfr, show idx + 1 - 1 = idx by omega,
          getD_set_eq _ _ _ _ (by rw [hlen]; exact hidx)]
      · show (st.idxToPeak.set idx (some pi)).getD (st.peaks.getD pi default).right none
          = some pi
        rw [getD_set_ne _ _ _ (by rw [hrfr]; omega), hrfr]
        exact hmapR
    · rw [getD_set_ne _ _ _ (fun he => hpie he.symm)] at hdied ⊢
      obtain ⟨hcomp, hml, hmr⟩ := inv.alive pi hpi hdied
      have hc1 := hcomp.1
      have hl1 : (st.peaks.getD pi default).left - 1 ≠ idx ∨
          (st.peaks.getD pi default).left = 0 := by
        rcases Nat.eq_zero_or_pos (st.peaks.getD pi default).left with h0 | h1
        · exact Or.inr h0
        · left
          intro he
          have heq := hcomp.eq_of_mem hcompR (by omega) (by omega) le_rfl hr2ge
          rw [heq.1] at hml
          rw [hmapRL] at hml
          exact hpie (Option.some.inj hml).symm
      refine ⟨hcomp.insert_of_ne hl1 (hrside _ _ hcomp), ?_, ?_⟩
      · rw [getD_set_ne]
        · exact hml
        · intro he
          exact hnotin (he ▸ hcomp.2.1 _ le_rfl hcomp.1)
      · rw [getD_set_ne]
        · exact hmr
        · intro he
          exact hnotin (he ▸ hcomp.2.1 _ hcomp.1 le_rfl)
  -- comp
  · intro l r hcomp
    dsimp only
    by_cases hin : l ≤ idx ∧ idx ≤ r
    · have heq := hcomp.eq_of_mem hnewcomp hin.1 hin.2 le_rfl (by omega)
      refine ⟨ir, ?_, ?_, ?_, ?_⟩
      · rw [List.length_set]
        exact hir
      · rw [getD_set_eq _ _ _ _ hir]
        exact hdr
      · rw [getD_set_eq _ _ _ _ hir]
        show (st.peaks.getD ir default).left - 1 = l
        rw [hlfr]
        omega
      · rw [getD_set_eq _ _ _ _ hir]
        show (st.peaks.getD ir default).right = r
        rw [hrfr, heq.2]
    · obtain ⟨pi, hpk, hdied, hleft, hright⟩ := inv.comp l r (hcomp.of_insert_not_mem hin)
      have hpie : pi ≠ ir := by
        intro he
        have hle : l = idx + 1 := by rw [← hleft, he, hlfr]
        rcases hcomp.2.2.1 with h0 | hni
        · omega
        · exact hni (by rw [show l - 1 = idx by omega]; exact Finset.mem_insert_self idx A)
      refine ⟨pi, ?_, ?_, ?_, ?_⟩
      · rw [List.length_set]
        exact hpk
      · rw [getD_set_ne _ _ _ (fun he => hpie he.symm)]
        exact hdied
      · rw [getD_set_ne _ _ _ (fun he => hpie he.symm)]
        exact hleft
      · rw [getD_set_ne _ _ _ (fun he => hpie he.symm)]
        exact hright
  -- cover
  · intro j hj
    rcases Finset.mem_insert.mp hj with rfl | hj
    · exact ⟨j, r2, hnewcomp, le_rfl, by omega⟩
    · obtain ⟨l, r, hcomp, h1, h2⟩ := inv.cover j hj
      have hc1 := hcomp.1
      by_cases hle : l = idx + 1
      · have heq := hcomp.eq_of_mem hcompR (by omega) (by omega) le_rfl hr2ge
        exact ⟨idx, r2, hnewcomp, by omega, by omega⟩
      · have hl1 : l - 1 ≠ idx ∨ l = 0 := by
          rcases Nat.eq_zero_or_pos l with h0 | hpos
          · exact Or.inr h0
          · exact Or.inl (fun he => hle (by omega))
        exact ⟨l, r, hcomp.insert_of_ne hl1 (hrside _ _ hcomp), h1, h2⟩
  -- deadValid
  · intro pi hpi d hd
    dsimp only at hpi hd
    rw [List.length_set] at hpi
    by_cases hpie : pi = ir
    · subst hpie
      rw [getD_set_eq _ _ _ _ hir] at hd
      have : (st.peaks.getD pi default).died = some d := hd
      rw [hdr] at this
      exact absurd this (by simp)
    · rw [getD_set_ne _ _ _ (fun he => hpie he.symm)] at hd
      exact inv.deadValid pi hpi d hd

end Godsp

namespace Godsp

/-- Core of the merge step, stated over the explicit post-state: the
winner `iw` takes the merged span `[l1, r2]`, the loser `io` dies at
`idx`, and `idxToPeak` is patched at the loser's far endpoint `e` and at
`idx`.  `hown` says which of the two adjacent components each of them
owned before the merge. -/
theorem sweepInv_merge_aux {n : ℕ} {A : Finset ℕ} {st : PState} (inv : SweepInv n A st)
    (idx l1 r2 iw io e : ℕ) (wNew : Peak)
    (hidx : idx < n) (hnotin : idx ∉ A) (h1 : 1 ≤ idx)
    (hcompL : IsComp A l1 (idx - 1)) (hcompR : IsComp A (idx + 1) r2)
    (hiw : iw < st.peaks.length) (hio : io < st.peaks.length) (hne : iw ≠ io)
    (hdw : (st.peaks.getD iw default).died = none)
    (hdo : (st.peaks.getD io default).died = none)
    (hWd : wNew.died = none) (hWl : wNew.left = l1) (hWr : wNew.right = r2)
    (hown : ((st.peaks.getD iw default).left = l1 ∧
             (st.peaks.getD iw default).right = idx - 1 ∧
             (st.peaks.getD io default).left = idx + 1 ∧
             (st.peaks.getD io default).right = r2 ∧ e = r2) ∨
            ((st.peaks.getD iw default).left = idx + 1 ∧
             (st.peaks.getD iw default).right = r2 ∧
             (st.peaks.getD io default).left = l1 ∧
             (st.peaks.getD io default).right = idx - 1 ∧ e = l1)) :
    SweepInv n (insert idx A)
      (PState.mk
        ((st.peaks.set io { st.peaks.getD io default with died := some idx }).set iw wNew)
        ((st.idxToPeak.set e (some iw)).set idx (some iw))) := by
  have hlen := inv.lenEq
  have hl1le : l1 ≤ idx - 1 := hcompL.1
  have hr2ge : idx + 1 ≤ r2 := hcompR.1
  have hl1A : l1 ∈ A := hcompL.2.1 l1 le_rfl hcompL.1
  have hr2A : r2 ∈ A := hcompR.2.1 r2 hcompR.1 le_rfl
  have hl1n : l1 < n := inv.bound l1 hl1A
  have hr2n : r2 < n := inv.bound r2 hr2A
  have heor : e = l1 ∨ e = r2 := by
    rcases hown with ⟨_, _, _, _, h⟩ | ⟨_, _, _, _, h⟩
    · exact Or.inr h
    · exact Or.inl h
  have heA : e ∈ A := by
    rcases heor with h | h
    · exact h ▸ hl1A
    · exact h ▸ hr2A
  have hen : e < n := inv.bound e heA
  -- the merged component
  have hnewcomp : IsComp (insert idx A) l1 r2 := by
    refine ⟨by omega, ?_, ?_, ?_⟩
    · intro j hj1 hj2
      by_cases hje : j = idx
      · rw [hje]
        exact Finset.mem_insert_self idx A
      · rcases Nat.lt_or_ge j idx with hlt | hge
        · exact Finset.mem_insert_of_mem (hcompL.2.1 j hj1 (by omega))
        · exact Finset.mem_insert_of_mem (hcompR.2.1 j (by omega) hj2)
    · rcases hcompL.2.2.1 with h0 | hni
      · exact Or.inl h0
      · rcases Nat.eq_zero_or_pos l1 with h0 | hpos
        · exact Or.inl h0
        · right
          intro hm
          rcases Finset.mem_insert.mp hm with he2 | hm2
          · omega
          · exact hni hm2
    · intro hm
      rcases Finset.mem_insert.mp hm with he2 | hm2
      · omega
      · exact hcompR.2.2.2 hm2
  -- the winner owns both endpoints of the merged span in the new map
  have ml1' : ((st.idxToPeak.set e (some iw)).set idx (some iw)).getD l1 none = some iw := by
    rw [getD_set_ne _ _ _ (show idx ≠ l1 by omega)]
    rcases hown with ⟨ha, _, _, _, he2⟩ | ⟨_, _, _, _, he2⟩
    · rw [getD_set_ne _ _ _ (by omega)]
      have hw := (inv.alive iw hiw hdw).2.1
      rw [ha] at hw
      exact hw
    · rw [he2, getD_set_eq _ _ _ _ (by rw [hlen]; exact hl1n)]
  have mr2' : ((st.idxToPeak.set e (some iw)).set idx (some iw)).getD r2 none = some iw := by
    rw [getD_set_ne _ _ _ (show idx ≠ r2 by omega)]
    rcases hown with ⟨_, _, _, _, he2⟩ | ⟨_, hb, _, _, he2⟩
    · rw [he2, getD_set_eq _ _ _ _ (by rw [hlen]; exact hr2n)]
    · rw [getD_set_ne _ _ _ (by omega)]
      have hw := (inv.alive iw hiw hdw).2.2
      rw [hb] at hw
      exact hw
  -- the two adjacent components' old owners, as map facts
  have moL : ∃ w, (w = iw ∨ w = io) ∧ st.idxToPeak.getD l1 none = some w := by
    rcases hown with ⟨ha, _, _, _, _⟩ | ⟨_, _, hc, _, _⟩
    · exact ⟨iw, Or.inl rfl, by rw [← ha]; exact (inv.alive iw hiw hdw).2.1⟩
    · exact ⟨io, Or.inr rfl, by rw [← hc]; exact (inv.alive io hio hdo).2.1⟩
  have moR : ∃ w, (w = iw ∨ w = io) ∧ st.idxToPeak.getD (idx + 1) none = some w := by
    rcases hown with ⟨_, _, hc, _, _⟩ | ⟨ha, _, _, _, _⟩
    · exact ⟨io, Or.inr rfl, by rw [← hc]; exact (inv.alive io hio hdo).2.1⟩
    · exact ⟨iw, Or.inl rfl, by rw [← ha]; exact (inv.alive iw hiw hdw).2.1⟩
  -- spans of other alive peaks avoid the whole merged range
  have hnotown : ∀ pi, pi < st.peaks.length → (st.peaks.getD pi default).died = none →
      pi ≠ iw → pi ≠ io → ∀ j, (st.peaks.getD pi default).left ≤ j →
      j ≤ (st.peaks.getD pi default).right → ¬(l1 ≤ j ∧ j ≤ r2) := by
    intro pi hpi hd hpw hpo j hj1 hj2 hj34
    obtain ⟨hcomp, hml, hmr⟩ := inv.alive pi hpi hd
    have hjA : j ∈ A := hcomp.2.1 j hj1 hj2
    have hjne : j ≠ idx := fun he2 => hnotin (he2 ▸ hjA)
    rcases Nat.lt_or_ge j idx with hlt | hge
    · have heq := hcomp.eq_of_mem hcompL hj1 hj2 hj34.1 (by omega)
      obtain ⟨w, hw, hmap⟩ := moL
      rw [heq.1, hmap] at hml
      rcases hw with h | h
      · exact hpw ((Option.some.inj hml).symm.trans h)
      · exact hpo ((Option.some.inj hml).symm.trans h)
    · have heq := hcomp.eq_of_mem hcompR hj1 hj2 (by omega) hj34.2
      obtain ⟨w, hw, hmap⟩ := moR
      rw [heq.1, hmap] at hml
      rcases hw with h | h
      · exact hpw ((Option.some.inj hml).symm.trans h)
      · exact hpo ((Option.some.inj hml).symm.trans h)
  constructor
  -- lenEq
  · dsimp only
    rw [List.length_set, List.length_set]
    exact hlen
  -- assign
  · intro j hj
    dsimp only
    rw [getD_set]
    by_cases hji : idx = j
    · rw [if_pos ⟨hji, by rw [List.length_set, hlen]; exact hidx⟩]
      subst hji
      simp [Finset.mem_insert_self]
    · rw [if_neg (fun hc => hji hc.1)]
      rw [getD_set]
      by_cases hej : e = j
      · rw [if_pos ⟨hej, by rw [hlen]; exact hen⟩]
        subst hej
        simp only [Option.isSome_some, true_iff]
        exact Finset.mem_insert_of_mem heA
      · rw [if_neg (fun hc => hej hc.1)]
        rw [inv.assign j hj]
        constructor
        · exact fun h => Finset.mem_insert_of_mem h
        · intro h
          rcases Finset.mem_insert.mp h with rfl | h
          · exact absurd rfl hji
          · exact h
  -- bound
  · intro j hj
    rcases Finset.mem_insert.mp hj with rfl | hj
    · exact hidx
    · exact inv.bound j hj
  -- mapValid
  · intro j hj pi hpi
    dsimp only at hpi ⊢
    rw [getD_set] at hpi
    rw [List.length_set, List.length_set]
    by_cases hc : idx = j ∧ idx < (st.idxToPeak.set e (some iw)).length
    · rw [if_pos hc] at hpi
      rw [← Option.some.inj hpi]
      exact hiw
    · rw [if_neg hc] at hpi
      rw [getD_set] at hpi
      by_cases hc2 : e = j ∧ e < st.idxToPeak.length
      · rw [if_pos hc2] at hpi
        rw [← Option.some.inj hpi]
        exact hiw
      · rw [if_neg hc2] at hpi
        exact inv.mapValid j hj pi hpi
  -- alive
  · intro pi hpi hdied
    dsimp only at hpi hdied ⊢
    rw [List.length_set, List.length_set] at hpi
    by_cases hpw : pi = iw
    · subst hpw
      rw [getD_set_eq _ _ _ _ (by rw [List.length_set]; exact hiw)] at hdied ⊢
      refine ⟨?_, ?_, ?_⟩
      · rw [hWl, hWr]
        exact hnewcomp
      · rw [hWl]
        exact ml1'
      · rw [hWr]
        exact mr2'
    · by_cases hpo : pi = io
      · subst hpo
        rw [getD_set_ne _ _ _ (fun he2 => hpw he2.symm),
          getD_set_eq _ _ _ _ hio] at hdied
        exact absurd hdied (by simp)
      · rw [getD_set_ne _ _ _ (fun he2 => hpw he2.symm),
          getD_set_ne _ _ _ (fun he2 => hpo he2.symm)] at hdied ⊢
        obtain ⟨hcomp, hml, hmr⟩ := inv.alive pi hpi hdied
        have hdisj := hnotown pi hpi hdied hpw hpo
        have hs2 : (st.peaks.getD pi default).right + 1 ≠ idx := by
          intro he2
          exact hdisj _ hcomp.1 le_rfl ⟨by omega, by omega⟩
        have hs1 : (st.peaks.getD pi default).left - 1 ≠ idx ∨
            (st.peaks.getD pi default).left = 0 := by
          rcases Nat.eq_zero_or_pos (st.peaks.getD pi default).left with h0 | hpos
          · exact Or.inr h0
          · exact Or.inl (fun he2 => hdisj _ le_rfl hcomp.1 ⟨by omega, by omega⟩)
        have hlidx : idx ≠ (st.peaks.getD pi default).left :=
          fun he2 => hnotin (he2 ▸ hcomp.2.1 _ le_rfl hcomp.1)
        have hridx : idx ≠ (st.peaks.getD pi default).right :=
          fun he2 => hnotin (he2 ▸ hcomp.2.1 _ hcomp.1 le_rfl)
        have hle2 : e ≠ (st.peaks.getD pi default).left := by
          intro he2
          rcases heor with h | h
          · exact hdisj _ le_rfl hcomp.1 ⟨by omega, by omega⟩
          · exact hdisj _ le_rfl hcomp.1 ⟨by omega, by omega⟩
        have hre2 : e ≠ (st.peaks.getD pi default).right := by
          intro he2
          rcases heor with h | h
          · exact hdisj _ hcomp.1 le_rfl ⟨by omega, by omega⟩
          · exact hdisj _ hcomp.1 le_rfl ⟨by omega, by omega⟩
        refine ⟨hcomp.insert_of_ne hs1 hs2, ?_, ?_⟩
        · rw [getD_set_ne _ _ _ hlidx, getD_set_ne _ _ _ hle2]
          exact hml
        · rw [getD_set_ne _ _ _ hridx, getD_set_ne _ _ _ hre2]
          exact hmr
  -- comp
  · intro l r hcomp
    dsimp only
    by_cases hin : l ≤ idx ∧ idx ≤ r
    · have heq := hcomp.eq_of_mem hnewcomp hin.1 hin.2 (by omega) (by omega)
      refine ⟨iw, ?_, ?_, ?_, ?_⟩
      · rw [List.length_set, List.length_set]
        exact hiw
      · rw [getD_set_eq _ _ _ _ (by rw [List.length_set]; exact hiw)]
        exact hWd
      · rw [getD_set_eq _ _ _ _ (by rw [List.length_set]; exact hiw), hWl]
        exact heq.1.symm
      · rw [getD_set_eq _ _ _ _ (by rw [List.length_set]; exact hiw), hWr]
        exact heq.2.symm
    · obtain ⟨pi, hpk, hdied, hleft, hright⟩ := inv.comp l r (hcomp.of_insert_not_mem hin)
      have hpw : pi ≠ iw := by
        intro he2
        rw [he2] at hleft hright
        rcases hown with ⟨ha, hb, _, _, _⟩ | ⟨ha, _, _, _, _⟩
        · have hre : r = idx - 1 := by rw [← hright, hb]
          exact hcomp.2.2.2
            (by rw [show r + 1 = idx by omega]; exact Finset.mem_insert_self idx A)
        · have hle : l = idx + 1 := by rw [← hleft, ha]
          rcases hcomp.2.2.1 with h0 | hni
          · omega
          · exact hni
              (by rw [show l - 1 = idx by omega]; exact Finset.mem_insert_self idx A)
      have hpo : pi ≠ io := by
        intro he2
        rw [he2] at hleft hright
        rcases hown with ⟨_, _, hc, _, _⟩ | ⟨_, _, _, hd2, _⟩
        · have hle : l = idx + 1 := by rw [← hleft, hc]
          rcases hcomp.2.2.1 with h0 | hni
          · omega
          · exact hni
              (by rw [show l - 1 = idx by omega]; exact Finset.mem_insert_self idx A)
        · have hre : r = idx - 1 := by rw [← hright, hd2]
          exact hcomp.2.2.2
            (by rw [show r + 1 = idx by omega]; exact Finset.mem_insert_self idx A)
      refine ⟨pi, ?_, ?_, ?_, ?_⟩
      · rw [List.length_set, List.length_set]
        exact hpk
      · rw [getD_set_ne _ _ _ (fun he2 => hpw he2.symm),
          getD_set_ne _ _ _ (fun he2 => hpo he2.symm)]
        exact hdied
      · rw [getD_set_ne _ _ _ (fun he2 => hpw he2.symm),
          getD_set_ne _ _ _ (fun he2 => hpo he2.symm)]
        exact hleft
      · rw [getD_set_ne _ _ _ (fun he2 => hpw he2.symm),
          getD_set_ne _ _ _ (fun he2 => hpo he2.symm)]
        exact hright
  -- cover
  · intro j hj
    rcases Finset.mem_insert.mp hj with rfl | hj
    · exact ⟨l1, r2, hnewcomp, by omega, by omega⟩
    · by_cases hjin : l1 ≤ j ∧ j ≤ r2
      · exact ⟨l1, r2, hnewcomp, hjin.1, hjin.2⟩
      · obtain ⟨l, r, hcomp, h1j, h2j⟩ := inv.cover j hj
        have hdisj : ∀ j2, l ≤ j2 → j2 ≤ r → ¬(l1 ≤ j2 ∧ j2 ≤ r2) := by
          intro j2 hj1 hj2 hj34
          have hj2A := hcomp.2.1 j2 hj1 hj2
          have hj2ne : j2 ≠ idx := fun he2 => hnotin (he2 ▸ hj2A)
          rcases Nat.lt_or_ge j2 idx with hlt | hge
          · have heq := hcomp.eq_of_mem hcompL hj1 hj2 hj34.1 (by omega)
            exact hjin ⟨by omega, by omega⟩
          · have heq := hcomp.eq_of_mem hcompR hj1 hj2 (by omega) hj34.2
            exact hjin ⟨by omega, by omega⟩
        have hs2 : r + 1 ≠ idx := by
          intro he2
          exact hdisj r hcomp.1 le_rfl ⟨by omega, by omega⟩
        have hs1 : l - 1 ≠ idx ∨ l = 0 := by
          rcases Nat.eq_zero_or_pos l with h0 | hpos
          · exact Or.inr h0
          · exact Or.inl (fun he2 => hdisj l le_rfl hcomp.1 ⟨by omega, by omega⟩)
        exact ⟨l, r, hcomp.insert_of_ne hs1 hs2, h1j, h2j⟩
  -- deadValid
  · intro pi hpi d hd
    dsimp only at hpi hd
    rw [List.length_set, List.length_set] at hpi
    by_cases hpw : pi = iw
    · subst hpw
      rw [getD_set_eq _ _ _ _ (by rw [List.length_set]; exact hiw), hWd] at hd
      exact absurd hd (by simp)
    · by_cases hpo : pi = io
      · subst hpo
        rw [getD_set_ne _ _ _ (fun he2 => hpw he2.symm), getD_set_eq _ _ _ _ hio] at hd
        have h2 : some idx = some d := hd
        rw [← Option.some.inj h2]
        exact hidx
      · rw [getD_set_ne _ _ _ (fun he2 => hpw he2.symm),
          getD_set_ne _ _ _ (fun he2 => hpo he2.symm)] at hd
        exact inv.deadValid pi hpi d hd

end Godsp

namespace Godsp

/-- Step case 4 (merge): both neighbours are assigned, to two distinct
alive peaks; the higher-born peak absorbs the other, which dies at `idx`. -/
theorem sweepInv_step_merge {F : Type} [LinearOrder F] [Inhabited F] (seq : List F)
    {n : ℕ} {A : Finset ℕ} {st : PState} (hn : n = seq.length) (inv : SweepInv n A st)
    (idx : ℕ) (hidx : idx < n) (hnotin : idx ∉ A)
    (hL : 1 ≤ idx ∧ idx - 1 ∈ A) (hR : idx + 1 ∈ A) :
    SweepInv n (insert idx A) (processIdx seq st idx) := by
  obtain ⟨il, l1, hgdl, hil, hdl, hlfl, hrfl, hcompL⟩ := inv.read_left idx hnotin hL.1 hL.2
  obtain ⟨ir, r2, hgdr, hir, hdr, hlfr, hrfr, hcompR⟩ := inv.read_right idx hnotin hR
  have hilir : il ≠ ir := by
    intro he
    rw [he] at hlfl
    rw [hlfr] at hlfl
    have hle := hcompL.1
    omega
  have h1 : (if 0 < idx then st.idxToPeak.getD (idx - 1) none else none) = some il := by
    rw [if_pos (by omega)]
    exact hgdl
  have h2 : (if idx < seq.length - 1 then st.idxToPeak.getD (idx + 1) none else none)
      = some ir := by
    have hb := inv.bound (idx + 1) hR
    rw [if_pos (by omega)]
    exact hgdr
  have hproc : processIdx seq st idx =
      (if seq.getD (st.peaks.getD ir default).born default
          < seq.getD (st.peaks.getD il default).born default then
        PState.mk
          ((st.peaks.set ir { st.peaks.getD ir default with died := some idx }).set il
            { st.peaks.getD il default with right := (st.peaks.getD ir default).right })
          ((st.idxToPeak.set (st.peaks.getD ir default).right (some il)).set idx (some il))
      else
        PState.mk
          ((st.peaks.set il { st.peaks.getD il default with died := some idx }).set ir
            { st.peaks.getD ir default with left := (st.peaks.getD il default).left })
          ((st.idxToPeak.set (st.peaks.getD il default).left (some ir)).set idx
            (some ir))) := by
    rw [processIdx, h1, h2]
  by_cases hcmp : seq.getD (st.peaks.getD ir default).born default
      < seq.getD (st.peaks.getD il default).born default
  · have hst' : processIdx seq st idx = PState.mk
        ((st.peaks.set ir { st.peaks.getD ir default with died := some idx }).set il
          { st.peaks.getD il default with right := r2 })
        ((st.idxToPeak.set r2 (some il)).set idx (some il)) := by
      rw [hproc, if_pos hcmp, hrfr]
    rw [hst']
    exact sweepInv_merge_aux inv idx l1 r2 il ir r2 _ hidx hnotin hL.1 hcompL hcompR
      hil hir hilir hdl hdr hdl hlfl rfl
      (Or.inl ⟨hlfl, hrfl, hlfr, hrfr, rfl⟩)
  · have hst' : processIdx seq st idx = PState.mk
        ((st.peaks.set il { st.peaks.getD il default with died := some idx }).set ir
          { st.peaks.getD ir default with left := l1 })
        ((st.idxToPeak.set l1 (some ir)).set idx (some ir)) := by
      rw [hproc, if_neg hcmp, hlfl]
    rw [hst']
    exact sweepInv_merge_aux inv idx l1 r2 ir il l1 _ hidx hnotin hL.1 hcompL hcompR
      hir hil (fun he => hilir he.symm) hdr hdl hdr rfl hrfr
      (Or.inr ⟨hlfr, hrfr, hlfl, hrfl, rfl⟩)

/-- One sweep step preserves the invariant, for any unprocessed `idx`. -/
theorem sweepInv_step {F : Type} [LinearOrder F] [Inhabited F] (seq : List F)
    {n : ℕ} {A : Finset ℕ} {st : PState} (hn : n = seq.length) (inv : SweepInv n A st)
    (idx : ℕ) (hidx : idx < n) (hnotin : idx ∉ A) :
    SweepInv n (insert idx A) (processIdx seq st idx) := by
  by_cases hL : 1 ≤ idx ∧ idx - 1 ∈ A
  · by_cases hR : idx + 1 ∈ A
    · exact sweepInv_step_merge seq hn inv idx hidx hnotin hL hR
    · exact sweepInv_step_left seq hn inv idx hidx hnotin hL hR
  · by_cases hR : idx + 1 ∈ A
    · exact sweepInv_step_right seq hn inv idx hidx hnotin hL hR
    · exact sweepInv_step_birth seq hn inv idx hidx hnotin hL hR

end Godsp

namespace Godsp

/-- The sweep invariant holds at the start: no index assigned, no peaks. -/
theorem sweepInv_init {n : ℕ} :
    SweepInv n ∅ (PState.mk [] (List.replicate n none)) := by
  constructor
  · dsimp only
    simp
  · intro j hj
    dsimp only
    rw [getD_replicate, if_pos hj]
    simp
  · intro j hj
    exact absurd hj (Finset.not_mem_empty j)
  · intro j hj pi hpi
    dsimp only at hpi
    rw [getD_replicate, if_pos hj] at hpi
    exact absurd hpi (by simp)
  · intro pi hpi
    dsimp only at hpi
    simp at hpi
  · intro l r hcomp
    exact absurd (hcomp.2.1 l le_rfl hcomp.1) (Finset.not_mem_empty l)
  · intro j hj
    exact absurd hj (Finset.not_mem_empty j)
  · intro pi hpi
    dsimp only at hpi
    simp at hpi

/-- Folding the sweep body over a duplicate-free list of fresh in-range
indices extends the invariant by exactly those indices. -/
theorem sweepInv_fold {F : Type} [LinearOrder F] [Inhabited F] (seq : List F)
    {n : ℕ} (hn : n = seq.length) (L : List ℕ) (hnd : L.Nodup)
    (hlt : ∀ i ∈ L, i < n) {A : Finset ℕ} {st : PState}
    (inv : SweepInv n A st) (hdisj : ∀ i ∈ L, i ∉ A) :
    SweepInv n (A ∪ L.toFinset) (L.foldl (processIdx seq) st) := by
  induction L generalizing A st with
  | nil =>
    simpa using inv
  | cons a L ih =>
    rw [List.foldl_cons]
    have hstep := sweepInv_step seq hn inv a (hlt a (List.mem_cons_self a L))
      (hdisj a (List.mem_cons_self a L))
    have hal : a ∉ L := (List.nodup_cons.mp hnd).1
    have hres := ih (List.nodup_cons.mp hnd).2
      (fun i hi => hlt i (List.mem_cons_of_mem a hi)) hstep
      (fun i hi hm => by
        rcases Finset.mem_insert.mp hm with he | hm2
        · exact hal (he ▸ hi)
        · exact hdisj i (List.mem_cons_of_mem a hi) hm2)
    have hset : insert a A ∪ L.toFinset = A ∪ (a :: L).toFinset := by
      ext x
      simp only [Finset.mem_union, Finset.mem_insert, List.toFinset_cons, List.mem_toFinset]
      tauto
    rw [← hset]
    exact hres

/-- On a fully processed range, `[0, n-1]` is a maximal interval. -/
theorem comp_range_whole {n : ℕ} (h1 : 1 ≤ n) : IsComp (Finset.range n) 0 (n - 1) := by
  refine ⟨by omega, fun j hj1 hj2 => Finset.mem_range.mpr (by omega), Or.inl rfl, ?_⟩
  intro hm
  have := Finset.mem_range.mp hm
  omega

/-- On a fully processed range, the only maximal interval is `[0, n-1]`. -/
theorem comp_range_eq {n l r : ℕ} (h1 : 1 ≤ n) (hcomp : IsComp (Finset.range n) l r) :
    l = 0 ∧ r = n - 1 := by
  obtain ⟨hlr, hmem, hbl, hbr⟩ := hcomp
  have hln : l < n := Finset.mem_range.mp (hmem l le_rfl hlr)
  have hrn : r < n := Finset.mem_range.mp (hmem r hlr le_rfl)
  constructor
  · rcases hbl with h0 | hni
    · exact h0
    · by_contra hne
      exact hni (Finset.mem_range.mpr (by omega))
  · by_contra hne
    exact hbr (Finset.mem_range.mpr (by omega))

/-- A list whose predicate holds at exactly one position filters to a
singleton. -/
theorem filter_length_one {α : Type} [Inhabited α] (l : List α) (p : α → Bool) :
    ∀ i0, i0 < l.length → p (l.getD i0 default) = true →
    (∀ i, i < l.length → p (l.getD i default) = true → i = i0) →
    (l.filter p).length = 1 := by
  induction l with
  | nil =>
    intro i0 h0 _ _
    simp at h0
  | cons a t ih =>
    intro i0 h0 hp huniq
    by_cases hpa : p a = true
    · have h00 : 0 = i0 := huniq 0 (by simp) hpa
      suffices hft : t.filter p = [] by simp [List.filter_cons, hpa, hft]
      rw [List.filter_eq_nil]
      intro b hb hpb
      obtain ⟨j, hj, hje⟩ := List.mem_iff_getElem.mp hb
      have hgd : t.getD j default = b := by
        rw [List.getD_eq_getElem _ _ hj, hje]
      have hj1 := huniq (j + 1) (by simp only [List.length_cons]; omega)
        (by show p (t.getD j default) = true; rw [hgd]; exact hpb)
      omega
    · have hi0 : i0 ≠ 0 := by
        intro he
        rw [he] at hp
        exact hpa hp
      have h0' : i0 - 1 < t.length := by
        simp only [List.length_cons] at h0
        omega
      have hp' : p (t.getD (i0 - 1) default) = true := by
        have hcast : (a :: t).getD i0 default = t.getD (i0 - 1) default := by
          cases i0 with
          | zero => exact absurd rfl hi0
          | succ k => rfl
        rw [← hcast]
        exact hp
      have huniq' : ∀ i, i < t.length → p (t.getD i default) = true → i = i0 - 1 := by
        intro i hi hpi
        have := huniq (i + 1) (by simp only [List.length_cons]; omega)
          (by show p (t.getD i default) = true; exact hpi)
        omega
      have := ih (i0 - 1) h0' hp' huniq'
      simpa [List.filter_cons, hpa] using this

end Godsp

namespace Godsp

/-- C10: for every non-empty input sequence, exactly one peak in the
result of `GetPeaks` has `died` equal to the never-died sentinel (and
any such peak has infinite persistence); every other peak's `died`
field holds a valid index of the sequence, set during a merge. -/
theorem C10_unique_infinite {F : Type} [LinearOrder F] [Sub F] [Inhabited F]
    (seq : List F) (hne : seq ≠ []) :
    ((GetPeaks seq).peaks.filter (fun p => decide (p.died = none))).length = 1 ∧
    (∀ p ∈ (GetPeaks seq).peaks, p.died = none →
      p.getPersistence seq = EF.pinf) ∧
    (∀ p ∈ (GetPeaks seq).peaks, ∀ d, p.died = some d → d < seq.length) := by
  have hn1 : 0 < seq.length := List.length_pos.mpr hne
  have hgp : (GetPeaks seq).peaks = sortLe bornLe
      ((sortedIndices seq).foldl (processIdx seq)
        (PState.mk [] (List.replicate seq.length none))).peaks := rfl
  rw [hgp]
  set stf := (sortedIndices seq).foldl (processIdx seq)
    (PState.mk [] (List.replicate seq.length none)) with hstf
  have hfold : SweepInv seq.length (∅ ∪ (sortedIndices seq).toFinset) stf :=
    sweepInv_fold seq rfl (sortedIndices seq) (sortedIndices_nodup seq)
      (fun i hi => (sortedIndices_mem seq i).mp hi) sweepInv_init
      (fun i _ => Finset.not_mem_empty i)
  have hfull : SweepInv seq.length (Finset.range seq.length) stf := by
    have htf : (sortedIndices seq).toFinset = Finset.range seq.length := by
      rw [List.toFinset_eq_of_perm _ _ (sortedIndices_perm seq)]
      ext x
      simp [List.mem_toFinset, List.mem_range, Finset.mem_range]
    rwa [htf, Finset.empty_union] at hfold
  obtain ⟨pi0, hpi0, hd0, hl0, hr0⟩ :=
    hfull.comp 0 (seq.length - 1) (comp_range_whole hn1)
  have hml0 := (hfull.alive pi0 hpi0 hd0).2.1
  rw [hl0] at hml0
  have huniq : ∀ i, i < stf.peaks.length →
      (stf.peaks.getD i default).died = none → i = pi0 := by
    intro i hi hdi
    obtain ⟨hcompi, hmli, _⟩ := hfull.alive i hi hdi
    have hsp := comp_range_eq hn1 hcompi
    rw [hsp.1] at hmli
    rw [hml0] at hmli
    exact (Option.some.inj hmli).symm
  have hperm := perm_sortLe bornLe stf.peaks
  refine ⟨?_, ?_, ?_⟩
  · rw [(hperm.filter _).length_eq]
    exact filter_length_one stf.peaks _ pi0 hpi0
      (by simp only [decide_eq_true_eq, hd0])
      (fun i hi hpf => huniq i hi (of_decide_eq_true hpf))
  · intro p _ hd
    simp [Peak.getPersistence, hd]
  · intro p hp d hd
    obtain ⟨i, hi, hie⟩ := List.mem_iff_getElem.mp (hperm.mem_iff.mp hp)
    have hdi : (stf.peaks.getD i default).died = some d := by
      rw [List.getD_eq_getElem _ _ hi, hie]
      exact hd
    exact hfull.deadValid i hi d hdi

/-- Witness for C10 on the concrete sequence `[1, 3, 2]`. -/
theorem C10_witness :
    (([1, 3, 2] : List ℤ) ≠ []) ∧
    (((GetPeaks ([1, 3, 2] : List ℤ)).peaks.filter
        (fun p => decide (p.died = none))).length = 1 ∧
     (∀ p ∈ (GetPeaks ([1, 3, 2] : List ℤ)).peaks, p.died = none →
       p.getPersistence ([1, 3, 2] : List ℤ) = EF.pinf) ∧
     (∀ p ∈ (GetPeaks ([1, 3, 2] : List ℤ)).peaks, ∀ d, p.died = some d →
       d < ([1, 3, 2] : List ℤ).length)) :=
  ⟨by decide, C10_unique_infinite ([1, 3, 2] : List ℤ) (by decide)⟩

end Godsp
